import Mathlib

/-!
# SCS HashFS V2 packer (`scs_packer.cpp`)

A shallow embedding of the archive writer: the path hash `ScsHash`, the
metadata encoder `write_metadata`, the stream alignment `align16` and the body
of `main` that lays out data blocks, entry table, metadata table and header.

Conventions of the embedding:

* a byte is a natural number below 256, a `std::string` or byte buffer is a
  `List Nat`;
* `u64`, `u32`, `u16` values are natural numbers, reduced `% 2^w` wherever the
  source can overflow or narrows;
* `memcpy` of eight bytes into a `u64` and the raw write of packed structs are
  little-endian (the target is x86-64), `size_t` is 64 bits wide.
-/

namespace ScsPacker

/-! ## Path hash -/

/-- `const u64 K1 = 0x9ddfea08eb382d69ULL;` -/
def K1 : Nat := 0x9ddfea08eb382d69

/-- `if (!path.empty() && path[0] == '/') path.erase(0, 1);` (47 is `'/'`). -/
def eraseLeadingSlash : List Nat → List Nat
  | 47 :: rest => rest
  | path => path

/-- `std::tolower` on an `unsigned char` in the default "C" locale: only
`'A'..'Z'` (65..90) change. -/
def tolower (c : Nat) : Nat :=
  if 65 ≤ c ∧ c ≤ 90 then c + 32 else c

/-- `if (c == '\\') c = '/';` (92 is the backslash, 47 the forward slash). -/
def backslashToSlash (c : Nat) : Nat :=
  if c = 92 then 47 else c

/-- Lines 49-52 of `ScsHash`: erase one leading `'/'`, lower-case every
character with `std::transform`, then turn every backslash into a slash. -/
def normalizePath (path : List Nat) : List Nat :=
  ((eraseLeadingSlash path).map tolower).map backslashToSlash

/-- The body of the `while (len >= 8)` loop for one 8-byte word `k`
(`k *= K1; k ^= k >> 47; k *= K1; hash ^= k; hash *= K1;`), `u64` arithmetic. -/
def hashStep (hash k : Nat) : Nat :=
  let k := k * K1 % 2 ^ 64
  let k := k ^^^ (k >>> 47)
  let k := k * K1 % 2 ^ 64
  let hash := hash ^^^ k
  hash * K1 % 2 ^ 64

/-- `memcpy(&k, s, 8)`: the little-endian value of the next eight bytes. -/
def load64 (b0 b1 b2 b3 b4 b5 b6 b7 : Nat) : Nat :=
  b0 + 2 ^ 8 * b1 + 2 ^ 16 * b2 + 2 ^ 24 * b3 + 2 ^ 32 * b4 + 2 ^ 40 * b5
    + 2 ^ 48 * b6 + 2 ^ 56 * b7

/-- The loop `while (len >= 8) { ...; s += 8; len -= 8; }`: the list is what is
left at `s`, its length is `len`; fewer than eight bytes left ends the loop. -/
def hashLoop (hash : Nat) : List Nat → Nat
  | b0 :: b1 :: b2 :: b3 :: b4 :: b5 :: b6 :: b7 :: rest =>
      hashLoop (hashStep hash (load64 b0 b1 b2 b3 b4 b5 b6 b7)) rest
  | _ => hash

/-- `u64 ScsHash(std::string path)`. -/
def ScsHash (path : List Nat) : Nat :=
  let path := normalizePath path
  let len := path.length
  hashLoop (K1 ^^^ len) path

/-- The bytes of an ASCII string literal. -/
def ascii (s : String) : List Nat :=
  s.toList.map Char.toNat

/-! ## Metadata record -/

/-- `constexpr u64 BLOCK_SIZE = 16;` -/
def BLOCK_SIZE : Nat := 16

/-- The `n` low bytes of `v`, least significant first: how a packed integer
field of `n` bytes lies in memory. -/
def leBytes : Nat → Nat → List Nat
  | 0, _ => []
  | n + 1, v => v % 256 :: leBytes n (v / 256)

/-- `void write_metadata(std::vector<u8>& buf, u32 cSize, u32 uSize, u64 offset,
bool compressed)`: returns the buffer after the sixteen `push_back`s. -/
def write_metadata (buf : List Nat) (cSize uSize offset : Nat) (compressed : Bool) :
    List Nat :=
  let buf := buf ++ [cSize &&& 0xFF]
  let buf := buf ++ [(cSize >>> 8) &&& 0xFF]
  let buf := buf ++ [(cSize >>> 16) &&& 0xFF]
  let buf := buf ++ [((cSize >>> 24) &&& 0x0F) ||| (if compressed then 0x10 else 0x00)]
  let buf := buf ++ [uSize &&& 0xFF]
  let buf := buf ++ [(uSize >>> 8) &&& 0xFF]
  let buf := buf ++ [(uSize >>> 16) &&& 0xFF]
  let buf := buf ++ [(uSize >>> 24) &&& 0x0F]
  let unknown : Nat := 0
  let offsetBlock : Nat := (offset / BLOCK_SIZE) % 2 ^ 32
  let buf := buf ++ leBytes 4 unknown
  buf ++ leBytes 4 offsetBlock

/-! ## Output stream -/

/-- The state of the `std::ofstream`: the bytes of the file so far and the put
position. Writes are taken to succeed. -/
structure OStream where
  bytes : List Nat
  pos : Nat
deriving DecidableEq

/-- `f.tellp()`. -/
def OStream.tellp (f : OStream) : Nat := f.pos

/-- `f.seekp(p)`. -/
def OStream.seekp (f : OStream) (p : Nat) : OStream := { f with pos := p }

/-- `f.write(data, size)`: the bytes go to the put position, over what is
there; a gap between the end of the file and the position reads as zeros. -/
def OStream.write (f : OStream) (data : List Nat) : OStream :=
  { bytes := (f.bytes ++ List.replicate (f.pos - f.bytes.length) 0).take f.pos ++ data
      ++ f.bytes.drop (f.pos + data.length),
    pos := f.pos + data.length }

/-- `f.put(c)`. -/
def OStream.put (f : OStream) (c : Nat) : OStream := f.write [c]

/-- The loop of `align16` run for at most `fuel` iterations. -/
def align16Loop : Nat → OStream → OStream
  | 0, f => f
  | fuel + 1, f => if f.tellp % BLOCK_SIZE ≠ 0 then align16Loop fuel (f.put 0) else f

/-- `void align16(std::ofstream& f)`: `while (f.tellp() % BLOCK_SIZE != 0) f.put(0);`.
Sixteen iterations always reach the exit test (`align16_pos_mod`). -/
def align16 (f : OStream) : OStream := align16Loop 16 f

/-! ## Archive structures -/

/-- `struct HashFsV2Header` (packed, 56 bytes). -/
structure HashFsV2Header where
  magic : Nat
  version : Nat
  salt : Nat
  hash_method : List Nat
  num_entries : Nat
  entry_table_length : Nat
  num_metadata_entries : Nat
  metadata_table_length : Nat
  entry_table_start : Nat
  metadata_table_start : Nat
  security_descriptor_offset : Nat
  platform : Nat
deriving DecidableEq

/-- The 56 bytes of a header as `scs.write(reinterpret_cast<char*>(&h), sizeof(h))`
emits them. -/
def HashFsV2Header.toBytes (h : HashFsV2Header) : List Nat :=
  leBytes 4 h.magic ++ leBytes 2 h.version ++ leBytes 2 h.salt ++ h.hash_method.take 4
    ++ leBytes 4 h.num_entries ++ leBytes 4 h.entry_table_length
    ++ leBytes 4 h.num_metadata_entries ++ leBytes 4 h.metadata_table_length
    ++ leBytes 8 h.entry_table_start ++ leBytes 8 h.metadata_table_start
    ++ leBytes 8 h.security_descriptor_offset ++ leBytes 4 h.platform

/-- `struct EntryTableEntry` (packed, 16 bytes). -/
structure EntryTableEntry where
  hash : Nat
  metadata_index : Nat
  metadata_count : Nat
  flags : Nat
deriving DecidableEq

/-- The 16 bytes of one entry in the raw write of `entries.data()`. -/
def EntryTableEntry.toBytes (e : EntryTableEntry) : List Nat :=
  leBytes 8 e.hash ++ leBytes 4 e.metadata_index ++ leBytes 2 e.metadata_count
    ++ leBytes 2 e.flags

/-! ## The packer -/

/-- One regular file met by `fs::recursive_directory_iterator(input)`:
`relPath` is `fs::relative(p.path(), input).generic_string()`, `content` is what
reading the file yields, `none` when it cannot be opened. -/
structure SourceFile where
  relPath : List Nat
  content : Option (List Nat)
deriving DecidableEq

/-- `struct Item { u64 hash; fs::path path; };` -/
structure Item where
  hash : Nat
  path : SourceFile
deriving DecidableEq

/-- Lines 126-130: one `Item` per regular file, hashed under `"/" + relative path`. -/
def collectFiles (listing : List SourceFile) : List Item :=
  listing.map fun p => { hash := ScsHash (47 :: p.relPath), path := p }

/-- What the C++ standard promises of
`std::sort(files.begin(), files.end(), [](auto& a, auto& b){ return a.hash < b.hash; })`:
the result is a permutation of the input and no later element compares less
than an earlier one. The order of elements with equal hash is not fixed. -/
def IsStdSort (sort : List Item → List Item) : Prop :=
  ∀ l, (sort l).Perm l ∧ (sort l).Pairwise (fun a b => ¬ b.hash < a.hash)

/-- An instance of the sort: insertion sort by hash. -/
def insertionSortByHash (l : List Item) : List Item :=
  l.insertionSort (fun a b => a.hash ≤ b.hash)

/-- The variables that live across iterations of the per-file loop;
`dataOffsets` records the local `dataOffset` of every iteration. -/
structure PackState where
  scs : OStream
  entries : List EntryTableEntry
  metaTable : List Nat
  dataOffsets : List Nat
deriving DecidableEq

/-- `std::vector<u8> raw((std::istreambuf_iterator<char>(in)), {})`: a stream
that failed to open yields no bytes. -/
def readAll (p : SourceFile) : List Nat := p.content.getD []

/-- One iteration of the loop of lines 138-167 for `files[i]`; `compress` is the
zlib call followed by `comp.resize(cSize)`, taken to succeed. -/
def packStep (compress : List Nat → List Nat) (st : PackState) (i : Nat) (item : Item) :
    PackState :=
  let raw := readAll item.path
  let comp := compress raw
  let scs := align16 st.scs
  let dataOffset := scs.tellp
  let scs := scs.write comp
  let entries := st.entries ++
    [{ hash := item.hash, metadata_index := i, metadata_count := 1, flags := 0x4 }]
  let metaTable := st.metaTable ++ [128]
  let metaTable := metaTable ++ [0]
  let metaTable := metaTable ++ [0]
  let metaTable := metaTable ++ [0]
  let metaTable := write_metadata metaTable (comp.length % 2 ^ 32) (raw.length % 2 ^ 32)
    dataOffset true
  { scs := scs, entries := entries, metaTable := metaTable,
    dataOffsets := st.dataOffsets ++ [dataOffset] }

/-- `for (u32 i = 0; i < files.size(); ++i) { ... }` over the files from index
`i` on. -/
def packLoop (compress : List Nat → List Nat) : List Item → Nat → PackState → PackState
  | [], _, st => st
  | item :: rest, i, st => packLoop compress rest (i + 1) (packStep compress st i item)

/-- Everything the run leaves behind: the bytes of the output file, the header
written, and the vectors `files` (sorted), `entries`, `metaTable`, with the
`dataOffset` of every file. -/
structure Archive where
  file : List Nat
  header : HashFsV2Header
  files : List Item
  entries : List EntryTableEntry
  metaTable : List Nat
  dataOffsets : List Nat
deriving DecidableEq

/-- Lines 120-194 of `main`, from the opened output stream to `return 0`.
`sort` is the `std::sort` call, `compress` the zlib call, `listing` the regular
files in the order the directory iterator yields them. The loop counter `i` is a
`u32`: with `2^32` files or more `i < files.size()` never fails and the loop does
not end, which is the result `none`. -/
def pack (sort : List Item → List Item) (compress : List Nat → List Nat)
    (listing : List SourceFile) : Option Archive :=
  let scs : OStream := { bytes := [], pos := 0 }
  let scs := scs.seekp 56
  let files := sort (collectFiles listing)
  if files.length < 2 ^ 32 then
    let st := packLoop compress files 0
      { scs := scs, entries := [], metaTable := [], dataOffsets := [] }
    let scs := align16 st.scs
    let entryStart := scs.tellp
    let scs := scs.write (st.entries.flatMap EntryTableEntry.toBytes)
    let scs := align16 scs
    let metaStart := scs.tellp
    let scs := scs.write st.metaTable
    let h : HashFsV2Header :=
      { magic := 83 + 2 ^ 8 * 67 + 2 ^ 16 * 83 + 2 ^ 24 * 35
        version := 2
        salt := 0
        hash_method := [67, 73, 84, 89]
        num_entries := st.entries.length % 2 ^ 32
        entry_table_length := (st.entries.length * 16) % 2 ^ 64 % 2 ^ 32
        num_metadata_entries := st.entries.length % 2 ^ 32
        metadata_table_length := st.metaTable.length % 2 ^ 32
        entry_table_start := entryStart
        metadata_table_start := metaStart
        security_descriptor_offset := 0
        platform := 0 }
    let scs := scs.seekp 0
    let scs := scs.write h.toBytes
    some { file := scs.bytes, header := h, files := files, entries := st.entries,
           metaTable := st.metaTable, dataOffsets := st.dataOffsets }
  else none

/-- `int main(int argc, char** argv)`: the exit code and, when the packer ran,
what it produced. `openOk` tells whether the output file could be created. -/
def main (sort : List Item → List Item) (compress : List Nat → List Nat)
    (argc : Nat) (openOk : Bool) (listing : List SourceFile) : Option (Nat × Option Archive) :=
  if argc < 3 then some (1, none)
  else if !openOk then some (1, none)
  else (pack sort compress listing).map fun a => (0, some a)

/-! ## Reading an archive back -/

/-- The value of a little-endian byte string. -/
def leValue : List Nat → Nat
  | [] => 0
  | b :: bs => b + 256 * leValue bs

/-- The bytes `off .. off + len - 1` of a byte string. -/
def readAt (bytes : List Nat) (off len : Nat) : List Nat :=
  (bytes.drop off).take len

/-- The 16-byte metadata record of ordinal `idx`: the metadata table has a
stride of 20 bytes, a 4-byte prefix before each record. -/
def metaRecord (metaTable : List Nat) (idx : Nat) : List Nat :=
  readAt metaTable (20 * idx + 4) 16

/-- The compressed size a reader takes from a record: bytes 0..3, low 28 bits. -/
def recCompressedSize (r : List Nat) : Nat := leValue (readAt r 0 4) &&& 0x0FFFFFFF

/-- The uncompressed size a reader takes from a record: bytes 4..7, low 28 bits. -/
def recUncompressedSize (r : List Nat) : Nat := leValue (readAt r 4 4) &&& 0x0FFFFFFF

/-- The block index a reader takes from a record: bytes 12..15. -/
def recBlockIndex (r : List Nat) : Nat := leValue (readAt r 12 4)

/-! ## Closed form of the layout

Functions that say in closed form what the loops compute; the lemmas below
prove that they do. -/

/-- The least multiple of 16 that is at least `pos`. -/
def alignUp (pos : Nat) : Nat := pos + (16 - pos % 16) % 16

/-- The file as far as the put position: the bytes written, zero-filled up to
the position when the position lies beyond them. -/
def OStream.view (f : OStream) : List Nat :=
  f.bytes ++ List.replicate (f.pos - f.bytes.length) 0

/-- One data block: the file it holds, its ordinal, the compressed bytes and
the offset they are written at. -/
structure Block where
  item : Item
  index : Nat
  comp : List Nat
  dataOffset : Nat
deriving DecidableEq

/-- The blocks of the files `items`, the first of ordinal `i`, laid out from
stream position `pos` on. -/
def layout (compress : List Nat → List Nat) : Nat → Nat → List Item → List Block
  | _, _, [] => []
  | pos, i, item :: rest =>
    { item := item, index := i, comp := compress (readAll item.path),
      dataOffset := alignUp pos } ::
      layout compress (alignUp pos + (compress (readAll item.path)).length) (i + 1) rest

/-- The stream position after the blocks of `items`. -/
def layoutEnd (compress : List Nat → List Nat) : Nat → List Item → Nat
  | pos, [] => pos
  | pos, item :: rest =>
    layoutEnd compress (alignUp pos + (compress (readAll item.path)).length) rest

/-- The bytes the per-file loop appends from position `pos` on: padding and
compressed bytes of each file in turn. -/
def layoutBytes (compress : List Nat → List Nat) : Nat → List Item → List Nat
  | _, [] => []
  | pos, item :: rest =>
    List.replicate (alignUp pos - pos) 0 ++ compress (readAll item.path) ++
      layoutBytes compress (alignUp pos + (compress (readAll item.path)).length) rest

/-- The entry pushed for a block. -/
def Block.entry (b : Block) : EntryTableEntry :=
  { hash := b.item.hash, metadata_index := b.index, metadata_count := 1, flags := 0x4 }

/-- The 20 bytes appended to `metaTable` for a block. -/
def Block.metaBytes (b : Block) : List Nat :=
  [128, 0, 0, 0] ++ write_metadata [] (b.comp.length % 2 ^ 32)
    ((readAll b.item.path).length % 2 ^ 32) b.dataOffset true

/-! ## Sample inputs -/

/-- A directory of `n` empty files named `0`, `1`, ..., `n - 1`. -/
def numberedFiles (n : Nat) : List SourceFile :=
  (List.range n).map fun i => { relPath := ascii (toString i), content := some [] }

/-- A small directory: `readme.md` and `def/truck.sii`. -/
def sampleListing : List SourceFile :=
  [{ relPath := ascii "readme.md", content := some (ascii "hello") },
   { relPath := ascii "def/truck.sii", content := some (ascii "SiiNunit 0123456789") }]

/-- A stand-in for the compressor: a one-byte tag before the data. -/
def tagCompress (raw : List Nat) : List Nat := 120 :: raw

/-- The inverse of `tagCompress`. -/
def tagDecompress (comp : List Nat) : List Nat := comp.tail

/-! ## `std::sort` of the GNU C++ library

The call of lines 132-133 runs the `std::sort` of the C++ library the program is
built with. This is the one of the GNU library (libstdc++, `bits/stl_algo.h`):
an introsort loop that partitions ranges of more than 16 elements, followed by
an insertion sort. The comparison is that of the call, `a.hash < b.hash`. A
range is a list; where the library's unguarded scans rely on a sentinel, the
scans here end at the end of the range. -/

/-- `std::__lg(n)` by repeated halving: the floor of the binary logarithm. -/
def lgLoop : Nat → Nat → Nat
  | 0, _ => 0
  | fuel + 1, n => if 2 ≤ n then lgLoop fuel (n / 2) + 1 else 0

/-- `std::__lg(n)`. -/
def lg (n : Nat) : Nat := lgLoop n n

/-- `std::__unguarded_linear_insert(last, comp)`: `before` lists the elements
before `*last`, the nearest first, and the result lists that part of the range
after the call, `val` included, again from its end backwards. The loop
`while (comp(val, next)) { *last = *next; last = next; --next; }` moves `val`
down past every element it compares less than. -/
def unguardedLinearInsert (val : Item) : List Item → List Item
  | [] => [val]
  | next :: before =>
    if val.hash < next.hash then next :: unguardedLinearInsert val before
    else val :: next :: before

/-- One round of the `for` loop of `std::__insertion_sort` for `x = *i`;
`sortedRev` is the range `[first, i)` from its end backwards. When
`comp(i, first)` the element goes to the front of the range, otherwise
`__unguarded_linear_insert(i, comp)` runs. -/
def insertionSortStep (sortedRev : List Item) (x : Item) : List Item :=
  match sortedRev.getLast? with
  | some first =>
    if x.hash < first.hash then sortedRev ++ [x] else unguardedLinearInsert x sortedRev
  | none => [x]

/-- `std::__insertion_sort(first, last, comp)` on the range `l`. -/
def insertionSortRange (l : List Item) : List Item :=
  (l.foldl insertionSortStep []).reverse

/-- `std::__final_insertion_sort(first, last, comp)`: `__insertion_sort` on the
first 16 elements, then `__unguarded_insertion_sort` on the rest, or
`__insertion_sort` on the whole range when it has at most 16 elements. -/
def finalInsertionSort (l : List Item) : List Item :=
  if 16 < l.length then
    ((l.drop 16).foldl (fun sortedRev x => unguardedLinearInsert x sortedRev)
      (insertionSortRange (l.take 16)).reverse).reverse
  else insertionSortRange l

/-- The hash of the element at index `i` of a range. -/
def hashAt (l : List Item) (i : Nat) : Nat :=
  match l[i]? with
  | some it => it.hash
  | none => 0

/-- `std::iter_swap(a, b)` on the elements of index `i` and `j`. -/
def iterSwap (l : List Item) (i j : Nat) : List Item :=
  match l[i]?, l[j]? with
  | some x, some y => (l.set i y).set j x
  | _, _ => l

/-- `std::__move_median_to_first(result, a, b, c, comp)`. -/
def moveMedianToFirst (l : List Item) (result a b c : Nat) : List Item :=
  if hashAt l a < hashAt l b then
    if hashAt l b < hashAt l c then iterSwap l result b
    else if hashAt l a < hashAt l c then iterSwap l result c
    else iterSwap l result a
  else if hashAt l a < hashAt l c then iterSwap l result a
  else if hashAt l b < hashAt l c then iterSwap l result c
  else iterSwap l result b

/-- The loop `while (comp(first, pivot)) ++first;` over the elements from
`first` on. -/
def scanUpFrom (pivotHash : Nat) : List Item → Nat → Nat
  | [], first => first
  | x :: rest, first =>
    if x.hash < pivotHash then scanUpFrom pivotHash rest (first + 1) else first

/-- `while (comp(first, pivot)) ++first;` in the range `l`. -/
def scanUp (l : List Item) (pivot first : Nat) : Nat :=
  scanUpFrom (hashAt l pivot) (l.drop first) first

/-- The loop `while (comp(pivot, last)) --last;` over the elements from `last`
downwards. -/
def scanDownFrom (pivotHash : Nat) : List Item → Nat → Nat
  | [], last => last
  | x :: rest, last =>
    if pivotHash < x.hash then scanDownFrom pivotHash rest (last - 1) else last

/-- `while (comp(pivot, last)) --last;` in the range `l`. -/
def scanDown (l : List Item) (pivot last : Nat) : Nat :=
  scanDownFrom (hashAt l pivot) (l.take (last + 1)).reverse last

/-- The `while (true)` loop of `std::__unguarded_partition(first, last, pivot,
comp)` run for at most `fuel` rounds; `none` when the fuel is used up. -/
def unguardedPartitionLoop : Nat → List Item → Nat → Nat → Nat → Option (List Item × Nat)
  | 0, _, _, _, _ => none
  | fuel + 1, l, first, last, pivot =>
    let first := scanUp l pivot first
    let last := last - 1
    let last := scanDown l pivot last
    if ¬ first < last then some (l, first)
    else unguardedPartitionLoop fuel (iterSwap l first last) (first + 1) last pivot

/-- `std::__unguarded_partition(first, last, pivot, comp)`: the range after the
swaps and the cut returned. `last - first + 1` rounds always reach the `return`
(`unguardedPartitionLoop_isSome`). -/
def unguardedPartition (l : List Item) (first last pivot : Nat) : List Item × Nat :=
  (unguardedPartitionLoop (last - first + 1) l first last pivot).getD (l, first)

/-- `std::__unguarded_partition_pivot(first, last, comp)` on the range `l`. -/
def unguardedPartitionPivot (l : List Item) : List Item × Nat :=
  let mid := l.length / 2
  let l := moveMedianToFirst l 0 1 mid (l.length - 1)
  unguardedPartition l 1 l.length 0

/-- `std::__introsort_loop(first, last, depth_limit, comp)` on the range `l`:
while the range has more than 16 elements it is cut in two, the upper part is
handled by the recursive call and the loop goes on with the lower part.
`partialSort` is `std::__partial_sort(first, last, last, comp)`, the heap sort
taken when the depth limit is used up. -/
def introsortLoop (partialSort : List Item → List Item) : Nat → List Item → List Item
  | 0, l => if 16 < l.length then partialSort l else l
  | depth + 1, l =>
    if 16 < l.length then
      let p := unguardedPartitionPivot l
      introsortLoop partialSort depth (p.1.take p.2)
        ++ introsortLoop partialSort depth (p.1.drop p.2)
    else l

/-- `std::sort(first, last, comp)`, that is `std::__sort`: nothing on an empty
range, else the introsort loop with depth limit `2 * __lg(n)` and the final
insertion sort. -/
def stdSort (partialSort : List Item → List Item) (l : List Item) : List Item :=
  if l.length = 0 then l
  else finalInsertionSort (introsortLoop partialSort (lg l.length * 2) l)

/-- A directory of 20 files `a.txt`, ..., `t.txt`, enumerated in this order;
the file of rank `i` holds `i + 1` bytes. All twenty paths hash alike. -/
def twentyTiedFiles : List SourceFile :=
  (List.range 20).map fun i =>
    { relPath := (97 + i) :: ascii ".txt", content := some (List.replicate (i + 1) 0) }

/-- Two files of equal hash, `A.txt` before `a.txt`. -/
def twoTiedFiles : List SourceFile :=
  [{ relPath := ascii "A.txt", content := some [1] },
   { relPath := ascii "a.txt", content := some [2, 3] }]

/-- In words: `m` is the least multiple of 16 that is at least `x`. -/
def IsLeastMultipleOf16 (x m : Nat) : Prop :=
  m % 16 = 0 ∧ x ≤ m ∧ ∀ m', m' % 16 = 0 → x ≤ m' → m ≤ m'

/-! ## The hash as the specification words it -/

/-- The `normalize` of the testable property as it lists the steps: lower-case
every character, turn every backslash into a forward slash, strip one leading
separator. -/
def normalizeAsListed (p : List Nat) : List Nat :=
  match (p.map tolower).map backslashToSlash with
  | 47 :: rest => rest
  | s => s

/-- Reference normalisation in the order of the algorithm description: strip
one leading separator, lower-case every character, backslashes to slashes. -/
def refNormalize (p : List Nat) : List Nat :=
  let stripped := if p.head? = some 47 then p.tail else p
  stripped.map fun c =>
    let c := if 65 ≤ c ∧ c ≤ 90 then c - 65 + 97 else c
    if c = 92 then 47 else c

/-- Reference mixing of one word: `k = k*K1; k ^= k >> 47; k = k*K1`, modulo `2^64`. -/
def refMix (k : Nat) : Nat :=
  let k := k * 0x9ddfea08eb382d69 % 2 ^ 64
  let k := k ^^^ (k / 2 ^ 47)
  k * 0x9ddfea08eb382d69 % 2 ^ 64

/-- Reference fold: the accumulator starts at `K1 XOR length`; the full 8-byte
chunks `0 .. ⌊len/8⌋ - 1` are read in order as little-endian words, mixed and
folded in by `acc = (acc XOR k) * K1` modulo `2^64`. -/
def refScsHash (p : List Nat) : Nat :=
  let s := refNormalize p
  (List.range (s.length / 8)).foldl
    (fun acc i => (acc ^^^ refMix (leValue (readAt s (8 * i) 8))) * 0x9ddfea08eb382d69 % 2 ^ 64)
    (0x9ddfea08eb382d69 ^^^ s.length)

/-! ## Lemmas on the normalisation -/

theorem eraseLeadingSlash_cons (c : Nat) (rest : List Nat) :
    eraseLeadingSlash (c :: rest) = if c = 47 then rest else c :: rest := by
  by_cases h : c = 47
  · subst h; rfl
  · rw [if_neg h]
    unfold eraseLeadingSlash
    split
    · rename_i heq
      injection heq with h1 h2
      exact absurd h1 h
    · rfl

theorem tolower_eq_slash (c : Nat) : tolower c = 47 ↔ c = 47 := by
  unfold tolower; split_ifs <;> omega

theorem tolower_idem (c : Nat) : tolower (tolower c) = tolower c := by
  unfold tolower; split_ifs <;> omega

theorem backslashToSlash_idem (c : Nat) :
    backslashToSlash (backslashToSlash c) = backslashToSlash c := by
  unfold backslashToSlash; split_ifs <;> omega

theorem tolower_backslashToSlash (c : Nat) :
    tolower (backslashToSlash c) = backslashToSlash (tolower c) := by
  unfold backslashToSlash tolower; split_ifs <;> omega

theorem map_tolower_erase (p : List Nat) :
    (eraseLeadingSlash p).map tolower = eraseLeadingSlash (p.map tolower) := by
  cases p with
  | nil => rfl
  | cons c rest =>
    rw [List.map_cons, eraseLeadingSlash_cons, eraseLeadingSlash_cons]
    by_cases h : c = 47
    · rw [if_pos h, if_pos ((tolower_eq_slash c).2 h)]
    · rw [if_neg h, if_neg (fun h2 => h ((tolower_eq_slash c).1 h2)), List.map_cons]

/-- The two character maps of `ScsHash` applied to an already mapped string
change nothing. -/
theorem map_norm_idem (s : List Nat) :
    (((s.map tolower).map backslashToSlash).map tolower).map backslashToSlash
      = (s.map tolower).map backslashToSlash := by
  simp only [List.map_map]
  apply List.map_congr_left
  intro c _
  simp only [Function.comp]
  rw [tolower_backslashToSlash, tolower_idem, backslashToSlash_idem]

theorem normalizePath_slash_cons (s : List Nat) :
    normalizePath (47 :: s) = (s.map tolower).map backslashToSlash := by
  unfold normalizePath
  rw [eraseLeadingSlash_cons, if_pos rfl]

theorem normalizePath_of_no_slash (s : List Nat) (h : s.head? ≠ some 47) :
    normalizePath s = (s.map tolower).map backslashToSlash := by
  unfold normalizePath
  cases s with
  | nil => rfl
  | cons c rest =>
    rw [eraseLeadingSlash_cons, if_neg]
    intro hc; apply h; rw [hc]; rfl

theorem normalizePath_idem_of_no_slash (p : List Nat)
    (h : (normalizePath p).head? ≠ some 47) :
    normalizePath (normalizePath p) = normalizePath p := by
  rw [normalizePath_of_no_slash _ h]
  unfold normalizePath
  exact map_norm_idem _

theorem normalizePath_slash_normalizePath (p : List Nat) :
    normalizePath (47 :: normalizePath p) = normalizePath p := by
  rw [normalizePath_slash_cons]
  unfold normalizePath
  exact map_norm_idem _

/-! ## Lemmas on the hash loop -/

theorem leValue_eight (b0 b1 b2 b3 b4 b5 b6 b7 : Nat) :
    leValue [b0, b1, b2, b3, b4, b5, b6, b7] = load64 b0 b1 b2 b3 b4 b5 b6 b7 := by
  simp only [leValue, load64]; omega

theorem refMix_step (hash k : Nat) :
    (hash ^^^ refMix k) * 0x9ddfea08eb382d69 % 2 ^ 64 = hashStep hash k := by
  simp only [refMix, hashStep, K1, Nat.shiftRight_eq_div_pow]

/-- The loop of `ScsHash` is the left fold over the indices of the full 8-byte
chunks. -/
theorem hashLoop_eq_foldl : ∀ (s : List Nat) (hash : Nat),
    hashLoop hash s = (List.range (s.length / 8)).foldl
      (fun acc i => hashStep acc (leValue (readAt s (8 * i) 8))) hash
  | b0 :: b1 :: b2 :: b3 :: b4 :: b5 :: b6 :: b7 :: rest, hash => by
    have hlen : (b0 :: b1 :: b2 :: b3 :: b4 :: b5 :: b6 :: b7 :: rest).length / 8
        = rest.length / 8 + 1 := by
      simp only [List.length_cons]; omega
    rw [hlen, List.range_succ_eq_map, List.foldl_cons, List.foldl_map]
    rw [hashLoop, hashLoop_eq_foldl rest]
    have h0 : leValue (readAt (b0 :: b1 :: b2 :: b3 :: b4 :: b5 :: b6 :: b7 :: rest) (8 * 0) 8)
        = load64 b0 b1 b2 b3 b4 b5 b6 b7 := by
      rw [← leValue_eight]; rfl
    rw [h0]
    apply List.foldl_ext
    intro acc i _
    have hi : readAt (b0 :: b1 :: b2 :: b3 :: b4 :: b5 :: b6 :: b7 :: rest) (8 * (i + 1)) 8
        = readAt rest (8 * i) 8 := by
      unfold readAt
      rw [show 8 * (i + 1) = 8 * i + 8 by ring]
      rfl
    rw [hi]
  | [], hash => by simp [hashLoop]
  | [_], hash => by simp [hashLoop]
  | [_, _], hash => by simp [hashLoop]
  | [_, _, _], hash => by simp [hashLoop]
  | [_, _, _, _], hash => by simp [hashLoop]
  | [_, _, _, _, _], hash => by simp [hashLoop]
  | [_, _, _, _, _, _], hash => by simp [hashLoop]
  | [_, _, _, _, _, _, _], hash => by simp [hashLoop]

theorem hashLoop_short (s : List Nat) (hash : Nat) (h : s.length < 8) :
    hashLoop hash s = hash := by
  rw [hashLoop_eq_foldl, (Nat.div_eq_zero_iff (by norm_num)).2 h]
  rfl

theorem readAt_take (s : List Nat) (m off len : Nat) (h : off + len ≤ m) :
    readAt (s.take m) off len = readAt s off len := by
  unfold readAt
  rw [List.drop_take, List.take_take, Nat.min_eq_left (by omega)]

/-- Only the full chunks count: strings of one length with the same full
chunks run the loop to the same value. -/
theorem hashLoop_congr (s t : List Nat) (hash : Nat) (hlen : s.length = t.length)
    (hpre : s.take (8 * (s.length / 8)) = t.take (8 * (s.length / 8))) :
    hashLoop hash s = hashLoop hash t := by
  rw [hashLoop_eq_foldl s, hashLoop_eq_foldl t, ← hlen]
  apply List.foldl_ext
  intro acc i hi
  have hi2 : i < s.length / 8 := List.mem_range.1 hi
  have hb : 8 * i + 8 ≤ 8 * (s.length / 8) := by omega
  rw [← readAt_take s _ _ _ hb, ← readAt_take t _ _ _ hb, hpre]

theorem refNormalize_eq (p : List Nat) : refNormalize p = normalizePath p := by
  unfold refNormalize normalizePath
  rw [List.map_map]
  have hs : (if p.head? = some 47 then p.tail else p) = eraseLeadingSlash p := by
    cases p with
    | nil => rfl
    | cons c rest =>
      rw [eraseLeadingSlash_cons]
      by_cases h : c = 47
      · subst h; rfl
      · rw [if_neg h, if_neg]; simpa using h
  simp only [hs]
  apply List.map_congr_left
  intro c _
  simp only [Function.comp, tolower, backslashToSlash]
  split_ifs <;> omega

/-! ## Claims on the hash -/

/-- C1 (as stated, refuted): on the path `"//"` the hash is not the hash of the
normalised path, neither for the normalisation of the code nor for the one
that strips the separator last: `ScsHash` strips a slash again from the
normalised `"/"`. -/
theorem scsHash_normalize_counterexample :
    ScsHash (ascii "//") ≠ ScsHash (normalizePath (ascii "//")) ∧
    ScsHash (ascii "//") ≠ ScsHash (normalizeAsListed (ascii "//")) ∧
    ScsHash (ascii "//") ≠ ScsHash (refNormalize (ascii "//")) := by
  decide

/-- C1 (amended): with `normalizePath` the normalisation of the code (one
leading `'/'` erased, then lower-casing, then backslashes to slashes),
`ScsHash p = ScsHash (normalizePath p)` whenever the normalised path does not
itself begin with `'/'`, and for every path `p` the hash is that of the
normalised path put back under one leading `'/'`. -/
theorem scsHash_normalizePath (p : List Nat) :
    ((normalizePath p).head? ≠ some 47 → ScsHash p = ScsHash (normalizePath p)) ∧
    ScsHash p = ScsHash (47 :: normalizePath p) := by
  constructor
  · intro h
    unfold ScsHash
    simp only [normalizePath_idem_of_no_slash p h]
  · unfold ScsHash
    simp only [normalizePath_slash_normalizePath p]

/-- The amended C1 at the path `/Def\Vehicle\TRUCK.sii`. -/
theorem scsHash_normalizePath_witness :
    (normalizePath (ascii "/Def\\Vehicle\\TRUCK.sii")).head? ≠ some 47 ∧
    ScsHash (ascii "/Def\\Vehicle\\TRUCK.sii")
      = ScsHash (normalizePath (ascii "/Def\\Vehicle\\TRUCK.sii")) :=
  ⟨by decide, (scsHash_normalizePath (ascii "/Def\\Vehicle\\TRUCK.sii")).1 (by decide)⟩

/-- C3 (as stated, refuted): `"\\abcdefgh"` and `"/abcdefgh"` become equal once
every backslash is a forward slash, yet hash differently: only a leading
forward slash is erased. -/
theorem scsHash_separator_counterexample :
    (ascii "\\abcdefgh").map backslashToSlash = (ascii "/abcdefgh").map backslashToSlash ∧
    ScsHash (ascii "\\abcdefgh") ≠ ScsHash (ascii "/abcdefgh") := by
  decide

/-- C3 (amended): two paths that become equal after replacing every backslash
with a forward slash, and of which either both or neither begin with a forward
slash, have the same hash. -/
theorem scsHash_separator_style (p q : List Nat)
    (hconv : p.map backslashToSlash = q.map backslashToSlash)
    (hlead : p.head? = some 47 ↔ q.head? = some 47) :
    ScsHash p = ScsHash q := by
  have hnorm : normalizePath p = normalizePath q := by
    have key : ∀ s : List Nat, (s.map tolower).map backslashToSlash
        = (s.map backslashToSlash).map tolower := by
      intro s
      simp only [List.map_map]
      apply List.map_congr_left
      intro c _
      simp only [Function.comp]
      rw [tolower_backslashToSlash]
    by_cases hp : p.head? = some 47
    · have hq := hlead.1 hp
      obtain ⟨p', rfl⟩ : ∃ p', p = 47 :: p' := by
        cases p with
        | nil => simp at hp
        | cons c r => simp at hp; exact ⟨r, by rw [hp]⟩
      obtain ⟨q', rfl⟩ : ∃ q', q = 47 :: q' := by
        cases q with
        | nil => simp at hq
        | cons c r => simp at hq; exact ⟨r, by rw [hq]⟩
      rw [normalizePath_slash_cons, normalizePath_slash_cons, key, key]
      simp only [List.map_cons] at hconv
      rw [(List.cons.inj hconv).2]
    · have hq : q.head? ≠ some 47 := fun h => hp (hlead.2 h)
      rw [normalizePath_of_no_slash p hp, normalizePath_of_no_slash q hq, key, key, hconv]
  unfold ScsHash
  simp only [hnorm]

/-- The amended C3 at `/def\vehicle\truck.sii` and `/def/vehicle/truck.sii`. -/
theorem scsHash_separator_style_witness :
    ScsHash (ascii "/def\\vehicle\\truck.sii") = ScsHash (ascii "/def/vehicle/truck.sii") :=
  scsHash_separator_style (ascii "/def\\vehicle\\truck.sii") (ascii "/def/vehicle/truck.sii")
    (by decide) (by decide)

/-- C4: for every path, `ScsHash` is the reference fold of the specification
over the normalised string: accumulator `K1 XOR length`, then for each of the
`⌊len/8⌋` full chunks in order the little-endian word `k`, `k = k*K1`,
`k ^= k >> 47`, `k = k*K1`, `acc = (acc XOR k) * K1`, all modulo `2^64`. -/
theorem scsHash_eq_refScsHash (p : List Nat) : ScsHash p = refScsHash p := by
  unfold ScsHash refScsHash
  simp only [refNormalize_eq, hashLoop_eq_foldl, refMix_step]
  rfl

/-- C5: the trailing partial chunk is not hashed. Two normalised strings (fixed
points of the normalisation) of one length `n` that agree on their first
`8 * ⌊n/8⌋` bytes have the same hash; a normalised string shorter than 8 hashes
to `K1 XOR n`; `"/a.txt"` and `"/b.txt"` hash identically; and more generally
two paths hash alike as soon as their normalised forms have one length and the
same full chunks. -/
theorem scsHash_ignores_trailing_bytes :
    (∀ s t : List Nat, normalizePath s = s → normalizePath t = t → s.length = t.length →
      s.take (8 * (s.length / 8)) = t.take (8 * (s.length / 8)) → ScsHash s = ScsHash t) ∧
    (∀ s : List Nat, normalizePath s = s → s.length < 8 → ScsHash s = K1 ^^^ s.length) ∧
    ScsHash (ascii "/a.txt") = ScsHash (ascii "/b.txt") ∧
    (∀ p q : List Nat, (normalizePath p).length = (normalizePath q).length →
      (normalizePath p).take (8 * ((normalizePath p).length / 8))
        = (normalizePath q).take (8 * ((normalizePath p).length / 8)) →
      ScsHash p = ScsHash q) := by
  refine ⟨?_, ?_, by decide, ?_⟩
  · intro s t hs ht hlen hpre
    unfold ScsHash
    simp only [hs, ht, ← hlen]
    exact hashLoop_congr s t _ hlen hpre
  · intro s hs hlen
    unfold ScsHash
    simp only [hs]
    exact hashLoop_short s _ hlen
  · intro p q hlen hpre
    unfold ScsHash
    simp only [← hlen]
    exact hashLoop_congr _ _ _ hlen hpre

/-- C5 at `readme_a.md`, `readme_a.js` (one full chunk, three bytes left over) and
at the five bytes `a.txt`. -/
theorem scsHash_ignores_trailing_bytes_witness :
    ScsHash (ascii "readme_a.md") = ScsHash (ascii "readme_a.js") ∧
    ScsHash (ascii "a.txt") = K1 ^^^ 5 :=
  ⟨scsHash_ignores_trailing_bytes.1 (ascii "readme_a.md") (ascii "readme_a.js")
      (by decide) (by decide) (by decide) (by decide),
   scsHash_ignores_trailing_bytes.2.1 (ascii "a.txt") (by decide) (by decide)⟩

/-! ## Lemmas on the output stream -/

theorem alignUp_mod (pos : Nat) : alignUp pos % 16 = 0 := by
  unfold alignUp; omega

theorem alignUp_ge (pos : Nat) : pos ≤ alignUp pos := by
  unfold alignUp; omega

theorem alignUp_lt (pos : Nat) : alignUp pos < pos + 16 := by
  unfold alignUp; omega

theorem alignUp_of_mod (pos : Nat) (h : pos % 16 = 0) : alignUp pos = pos := by
  unfold alignUp; omega

theorem alignUp_succ (pos : Nat) (h : pos % 16 ≠ 0) : alignUp (pos + 1) = alignUp pos := by
  unfold alignUp; omega

theorem write_pos (f : OStream) (d : List Nat) : (f.write d).pos = f.pos + d.length := rfl

theorem view_length (f : OStream) (h : f.bytes.length ≤ f.pos) : f.view.length = f.pos := by
  unfold OStream.view
  rw [List.length_append, List.length_replicate]; omega

/-- A write at or beyond the end of the file appends to the zero-filled file. -/
theorem write_bytes (f : OStream) (d : List Nat) (h : f.bytes.length ≤ f.pos) :
    (f.write d).bytes = f.view ++ d := by
  have hlen := view_length f h
  unfold OStream.write
  unfold OStream.view at *
  simp only
  rw [List.drop_of_length_le (by omega), List.append_nil, List.take_of_length_le (by omega)]

theorem write_bytes_length (f : OStream) (d : List Nat) (h : f.bytes.length ≤ f.pos) :
    (f.write d).bytes.length = (f.write d).pos := by
  rw [write_bytes f d h, write_pos, List.length_append, view_length f h]

theorem write_view (f : OStream) (d : List Nat) (h : f.bytes.length ≤ f.pos) :
    (f.write d).view = f.view ++ d := by
  have h2 := write_bytes_length f d h
  unfold OStream.view
  rw [h2, Nat.sub_self, List.replicate_zero, List.append_nil, write_bytes f d h]
  rfl

/-- A write at the start of the file replaces its first bytes. -/
theorem write_at_zero (f : OStream) (d : List Nat) :
    ((f.seekp 0).write d).bytes = d ++ f.bytes.drop d.length := by
  unfold OStream.write OStream.seekp
  simp only [List.take_zero, List.nil_append, Nat.zero_add]

/-- The loop of `align16` with enough fuel: position, contents, and the put
position stays at or beyond the end of the file. -/
theorem align16Loop_spec : ∀ (fuel : Nat) (f : OStream),
    (16 - f.pos % 16) % 16 ≤ fuel → f.bytes.length ≤ f.pos →
    (align16Loop fuel f).pos = alignUp f.pos ∧
    (align16Loop fuel f).view = f.view ++ List.replicate (alignUp f.pos - f.pos) 0 ∧
    (align16Loop fuel f).bytes.length ≤ (align16Loop fuel f).pos
  | 0, f, hfuel, hw => by
    have h0 : f.pos % 16 = 0 := by omega
    simp only [align16Loop, alignUp_of_mod _ h0, Nat.sub_self, List.replicate_zero,
      List.append_nil, true_and]
    exact hw
  | fuel + 1, f, hfuel, hw => by
    by_cases h0 : f.pos % 16 = 0
    · have : align16Loop (fuel + 1) f = f := by
        simp [align16Loop, OStream.tellp, BLOCK_SIZE, h0]
      rw [this]
      simp only [alignUp_of_mod _ h0, Nat.sub_self, List.replicate_zero,
        List.append_nil, true_and]
      exact hw
    · have hstep : align16Loop (fuel + 1) f = align16Loop fuel (f.put 0) := by
        simp [align16Loop, OStream.tellp, BLOCK_SIZE, h0]
      have hpos : (f.put 0).pos = f.pos + 1 := rfl
      have hw2 : (f.put 0).bytes.length ≤ (f.put 0).pos :=
        le_of_eq (write_bytes_length f [0] hw)
      have hfuel2 : (16 - (f.put 0).pos % 16) % 16 ≤ fuel := by rw [hpos]; omega
      obtain ⟨ih1, ih2, ih3⟩ := align16Loop_spec fuel (f.put 0) hfuel2 hw2
      rw [hstep]
      refine ⟨?_, ?_, ih3⟩
      · rw [ih1, hpos, alignUp_succ _ h0]
      · rw [ih2, hpos, alignUp_succ _ h0]
        have hv : (f.put 0).view = f.view ++ [0] := write_view f [0] hw
        rw [hv, List.append_assoc]
        congr 1
        have hk : alignUp f.pos - f.pos = (alignUp f.pos - (f.pos + 1)) + 1 := by
          have := alignUp_ge f.pos
          unfold alignUp at *; omega
        rw [hk, List.replicate_succ]
        rfl

theorem align16_spec (f : OStream) (hw : f.bytes.length ≤ f.pos) :
    (align16 f).pos = alignUp f.pos ∧
    (align16 f).view = f.view ++ List.replicate (alignUp f.pos - f.pos) 0 ∧
    (align16 f).bytes.length ≤ (align16 f).pos :=
  align16Loop_spec 16 f (by omega) hw

/-- The loop of `align16` ends within its sixteen iterations, at the next
multiple of 16, whatever the state of the stream. -/
theorem align16Loop_pos : ∀ (fuel : Nat) (f : OStream),
    (16 - f.pos % 16) % 16 ≤ fuel → (align16Loop fuel f).pos = alignUp f.pos
  | 0, f, hfuel => by
    have h0 : f.pos % 16 = 0 := by omega
    simp only [align16Loop, alignUp_of_mod _ h0]
  | fuel + 1, f, hfuel => by
    by_cases h0 : f.pos % 16 = 0
    · have : align16Loop (fuel + 1) f = f := by
        simp [align16Loop, OStream.tellp, BLOCK_SIZE, h0]
      rw [this, alignUp_of_mod _ h0]
    · have hstep : align16Loop (fuel + 1) f = align16Loop fuel (f.put 0) := by
        simp [align16Loop, OStream.tellp, BLOCK_SIZE, h0]
      have hpos : (f.put 0).pos = f.pos + 1 := rfl
      rw [hstep, align16Loop_pos fuel (f.put 0) (by rw [hpos]; omega), hpos,
        alignUp_succ _ h0]

theorem align16_pos (f : OStream) : (align16 f).pos = alignUp f.pos :=
  align16Loop_pos 16 f (by omega)

theorem align16_pos_mod (f : OStream) : (align16 f).tellp % BLOCK_SIZE = 0 := by
  unfold OStream.tellp BLOCK_SIZE
  rw [align16_pos]; exact alignUp_mod _

/-! ## Lemmas on the per-file loop -/

theorem write_metadata_append (buf : List Nat) (cSize uSize offset : Nat) (compressed : Bool) :
    write_metadata buf cSize uSize offset compressed
      = buf ++ write_metadata [] cSize uSize offset compressed := by
  simp only [write_metadata, List.append_assoc, List.nil_append]

theorem leBytes_length : ∀ (n v : Nat), (leBytes n v).length = n
  | 0, _ => rfl
  | n + 1, v => by rw [leBytes, List.length_cons, leBytes_length n]

theorem write_metadata_nil_length (cSize uSize offset : Nat) (compressed : Bool) :
    (write_metadata [] cSize uSize offset compressed).length = 16 := by
  simp only [write_metadata, List.nil_append, List.length_append, List.length_singleton,
    leBytes_length]

theorem metaBytes_length (b : Block) : b.metaBytes.length = 20 := by
  unfold Block.metaBytes
  rw [List.length_append, write_metadata_nil_length]
  rfl

theorem packStep_entries (c : List Nat → List Nat) (st : PackState) (i : Nat) (item : Item) :
    (packStep c st i item).entries = st.entries ++
      [{ hash := item.hash, metadata_index := i, metadata_count := 1, flags := 0x4 }] := rfl

theorem packStep_dataOffsets (c : List Nat → List Nat) (st : PackState) (i : Nat)
    (item : Item) :
    (packStep c st i item).dataOffsets = st.dataOffsets ++ [alignUp st.scs.pos] := by
  unfold packStep
  simp only [OStream.tellp, align16_pos]

theorem packStep_metaTable (c : List Nat → List Nat) (st : PackState) (i : Nat) (item : Item) :
    (packStep c st i item).metaTable = st.metaTable ++
      Block.metaBytes { item := item, index := i, comp := c (readAll item.path),
                        dataOffset := alignUp st.scs.pos } := by
  unfold packStep Block.metaBytes
  simp only [OStream.tellp, align16_pos]
  rw [write_metadata_append]
  simp only [List.append_assoc, List.singleton_append, List.cons_append, List.nil_append]

theorem packStep_scs (c : List Nat → List Nat) (st : PackState) (i : Nat) (item : Item) :
    (packStep c st i item).scs = (align16 st.scs).write (c (readAll item.path)) := rfl

/-- The per-file loop in closed form: what it appends to `entries`, `metaTable`
and the recorded offsets, where it leaves the stream and what the file holds. -/
theorem packLoop_spec (c : List Nat → List Nat) : ∀ (items : List Item) (i : Nat)
    (st : PackState), st.scs.bytes.length ≤ st.scs.pos →
    (packLoop c items i st).entries
      = st.entries ++ (layout c st.scs.pos i items).map Block.entry ∧
    (packLoop c items i st).metaTable
      = st.metaTable ++ (layout c st.scs.pos i items).flatMap Block.metaBytes ∧
    (packLoop c items i st).dataOffsets
      = st.dataOffsets ++ (layout c st.scs.pos i items).map Block.dataOffset ∧
    (packLoop c items i st).scs.pos = layoutEnd c st.scs.pos items ∧
    (packLoop c items i st).scs.view = st.scs.view ++ layoutBytes c st.scs.pos items ∧
    (packLoop c items i st).scs.bytes.length ≤ (packLoop c items i st).scs.pos
  | [], i, st, hw => by
    simp only [packLoop, layout, layoutEnd, layoutBytes, List.map_nil, List.flatMap_nil,
      List.append_nil, true_and]
    exact hw
  | item :: rest, i, st, hw => by
    obtain ⟨ha1, ha2, ha3⟩ := align16_spec st.scs hw
    have hpos : (packStep c st i item).scs.pos
        = alignUp st.scs.pos + (c (readAll item.path)).length := by
      rw [packStep_scs, write_pos, ha1]
    have hview : (packStep c st i item).scs.view
        = st.scs.view ++ List.replicate (alignUp st.scs.pos - st.scs.pos) 0
            ++ c (readAll item.path) := by
      rw [packStep_scs, write_view _ _ ha3, ha2]
    have hw1 : (packStep c st i item).scs.bytes.length ≤ (packStep c st i item).scs.pos := by
      rw [packStep_scs]
      exact le_of_eq (write_bytes_length _ _ ha3)
    obtain ⟨h1, h2, h3, h4, h5, h6⟩ := packLoop_spec c rest (i + 1) (packStep c st i item) hw1
    simp only [packLoop, layout, layoutEnd, layoutBytes, List.map_cons, List.flatMap_cons]
    rw [hpos] at h1 h2 h3 h4 h5
    refine ⟨?_, ?_, ?_, h4, ?_, h6⟩
    · rw [h1, packStep_entries]; simp only [List.append_assoc, List.singleton_append]; rfl
    · rw [h2, packStep_metaTable, List.append_assoc]
    · rw [h3, packStep_dataOffsets]; simp only [List.append_assoc, List.singleton_append]
    · rw [h5, hview]; simp only [List.append_assoc]

theorem layout_length (c : List Nat → List Nat) : ∀ (items : List Item) (pos i : Nat),
    (layout c pos i items).length = items.length
  | [], _, _ => rfl
  | item :: rest, pos, i => by
    simp only [layout, List.length_cons, layout_length c rest]

theorem layout_map_item (c : List Nat → List Nat) : ∀ (items : List Item) (pos i : Nat),
    (layout c pos i items).map Block.item = items
  | [], _, _ => rfl
  | item :: rest, pos, i => by
    simp only [layout, List.map_cons, layout_map_item c rest]

theorem layout_dataOffset_mod (c : List Nat → List Nat) : ∀ (items : List Item) (pos i : Nat),
    ∀ b ∈ layout c pos i items, b.dataOffset % 16 = 0
  | [], _, _ => by simp [layout]
  | item :: rest, pos, i => by
    intro b hb
    simp only [layout, List.mem_cons] at hb
    rcases hb with rfl | hb
    · exact alignUp_mod pos
    · exact layout_dataOffset_mod c rest _ _ b hb

/-! ## The packer in closed form -/

/-- The state of the per-file loop when `pack` enters it. -/
theorem pack_unfold {sort : List Item → List Item} {c : List Nat → List Nat}
    {listing : List SourceFile} {r : Archive} (h : pack sort c listing = some r) :
    (sort (collectFiles listing)).length < 2 ^ 32 ∧
    r.files = sort (collectFiles listing) ∧
    r.entries = (packLoop c (sort (collectFiles listing)) 0
      { scs := { bytes := [], pos := 56 }, entries := [], metaTable := [],
        dataOffsets := [] }).entries ∧
    r.metaTable = (packLoop c (sort (collectFiles listing)) 0
      { scs := { bytes := [], pos := 56 }, entries := [], metaTable := [],
        dataOffsets := [] }).metaTable ∧
    r.dataOffsets = (packLoop c (sort (collectFiles listing)) 0
      { scs := { bytes := [], pos := 56 }, entries := [], metaTable := [],
        dataOffsets := [] }).dataOffsets ∧
    r.header.num_entries = r.entries.length % 2 ^ 32 ∧
    r.header.num_metadata_entries = r.entries.length % 2 ^ 32 ∧
    r.header.entry_table_length = (r.entries.length * 16) % 2 ^ 64 % 2 ^ 32 ∧
    r.header.metadata_table_length = r.metaTable.length % 2 ^ 32 ∧
    r.header.entry_table_start = (align16 (packLoop c (sort (collectFiles listing)) 0
      { scs := { bytes := [], pos := 56 }, entries := [], metaTable := [],
        dataOffsets := [] }).scs).pos ∧
    r.header.metadata_table_start = (align16 ((align16 (packLoop c
      (sort (collectFiles listing)) 0
      { scs := { bytes := [], pos := 56 }, entries := [], metaTable := [],
        dataOffsets := [] }).scs).write (r.entries.flatMap EntryTableEntry.toBytes))).pos ∧
    r.header.toBytes.length = 56 ∧
    r.file = ((((align16 ((align16 (packLoop c (sort (collectFiles listing)) 0
      { scs := { bytes := [], pos := 56 }, entries := [], metaTable := [],
        dataOffsets := [] }).scs).write (r.entries.flatMap EntryTableEntry.toBytes))).write
        r.metaTable).seekp 0).write r.header.toBytes).bytes := by
  unfold pack at h
  simp only [OStream.seekp] at h
  split at h
  · rename_i hlt
    injection h with h
    subst h
    refine ⟨hlt, rfl, rfl, rfl, rfl, rfl, rfl, rfl, rfl, rfl, rfl, ?_, rfl⟩
    simp only [HashFsV2Header.toBytes, List.length_append, leBytes_length]
    rfl
  · exact absurd h (by simp)

/-- `pack` returns exactly when there are fewer than `2^32` files. -/
theorem pack_isSome (sort : List Item → List Item) (c : List Nat → List Nat)
    (listing : List SourceFile) (h : (sort (collectFiles listing)).length < 2 ^ 32) :
    ∃ r, pack sort c listing = some r := by
  unfold pack
  simp only [OStream.seekp]
  rw [if_pos h]
  exact ⟨_, rfl⟩

theorem sort_length {sort : List Item → List Item} (hs : IsStdSort sort)
    (listing : List SourceFile) :
    (sort (collectFiles listing)).length = listing.length := by
  rw [(hs (collectFiles listing)).1.length_eq]
  unfold collectFiles
  rw [List.length_map]

/-- The archive in closed form: the vectors are the images of the block layout
of the sorted files from position 56 on, the table offsets are the aligned ends
of what precedes them, and the file is header, blocks, padding, entry table,
padding, metadata table. -/
theorem pack_spec {sort : List Item → List Item} {c : List Nat → List Nat}
    {listing : List SourceFile} {r : Archive} (h : pack sort c listing = some r) :
    r.files.length < 2 ^ 32 ∧
    r.files = sort (collectFiles listing) ∧
    r.entries = (layout c 56 0 r.files).map Block.entry ∧
    r.metaTable = (layout c 56 0 r.files).flatMap Block.metaBytes ∧
    r.dataOffsets = (layout c 56 0 r.files).map Block.dataOffset ∧
    r.header.entry_table_start = alignUp (layoutEnd c 56 r.files) ∧
    r.header.metadata_table_start
      = alignUp (r.header.entry_table_start
          + (r.entries.flatMap EntryTableEntry.toBytes).length) ∧
    r.file = r.header.toBytes ++ (layoutBytes c 56 r.files
      ++ (List.replicate (r.header.entry_table_start - layoutEnd c 56 r.files) 0
      ++ (r.entries.flatMap EntryTableEntry.toBytes
      ++ (List.replicate (r.header.metadata_table_start - (r.header.entry_table_start
          + (r.entries.flatMap EntryTableEntry.toBytes).length)) 0
      ++ r.metaTable)))) := by
  obtain ⟨hlt, hfiles, hent, hmeta, hoff, -, -, -, -, hes, hms, hhdr, hfile⟩ := pack_unfold h
  rw [← hfiles] at hlt hent hmeta hoff hes hms hfile
  obtain ⟨l1, l2, l3, l4, l5, l6⟩ := packLoop_spec c r.files 0
    { scs := { bytes := [], pos := 56 }, entries := [], metaTable := [], dataOffsets := [] }
    (Nat.zero_le _)
  simp only [List.nil_append] at l1 l2 l3 l4 l5
  obtain ⟨a1, a2, a3⟩ := align16_spec _ l6
  rw [l4] at a1 a2
  have es : r.header.entry_table_start = alignUp (layoutEnd c 56 r.files) := by rw [hes, a1]
  have w1 := write_view _ (r.entries.flatMap EntryTableEntry.toBytes) a3
  have w2 := write_bytes_length _ (r.entries.flatMap EntryTableEntry.toBytes) a3
  obtain ⟨b1, b2, b3⟩ := align16_spec _ (le_of_eq w2)
  rw [write_pos, a1, ← es] at b1 b2
  have ms : r.header.metadata_table_start = alignUp (r.header.entry_table_start
      + (r.entries.flatMap EntryTableEntry.toBytes).length) := by rw [hms, b1]
  have w3 := write_bytes _ r.metaTable b3
  refine ⟨hlt, hfiles, by rw [hent, l1], by rw [hmeta, l2], by rw [hoff, l3], es, ms, ?_⟩
  rw [hfile, write_at_zero, hhdr]
  congr 1
  rw [w3, b2, w1, a2, l5, ← ms, ← es]
  simp only [OStream.view, List.length_nil, Nat.sub_zero, List.nil_append, List.append_assoc]
  rw [List.drop_left' (List.length_replicate _ _)]

/-! ## Lemmas on reading back -/

theorem readAt_append_left (a b : List Nat) (off len : Nat) (h : off + len ≤ a.length) :
    readAt (a ++ b) off len = readAt a off len := by
  unfold readAt
  rw [List.drop_append_of_le_length (by omega),
    List.take_append_of_le_length (by rw [List.length_drop]; omega)]

theorem readAt_append_right (a b : List Nat) (off len : Nat) (h : a.length ≤ off) :
    readAt (a ++ b) off len = readAt b (off - a.length) len := by
  unfold readAt
  rw [List.drop_append_eq_append_drop, List.drop_of_length_le h, List.nil_append]

theorem readAt_zero_append (a b : List Nat) : readAt (a ++ b) 0 a.length = a := by
  unfold readAt
  rw [List.drop_zero, List.take_left' rfl]

/-- Everything known of the block of ordinal `k`: its index, its file, its
bytes, and that the laid out bytes hold them at its offset. -/
theorem layout_getElem? (c : List Nat → List Nat) : ∀ (items : List Item) (pos i k : Nat)
    (b : Block), (layout c pos i items)[k]? = some b →
    b.index = i + k ∧ items[k]? = some b.item ∧ b.comp = c (readAll b.item.path) ∧
    pos ≤ b.dataOffset ∧
    b.dataOffset + b.comp.length ≤ pos + (layoutBytes c pos items).length ∧
    readAt (layoutBytes c pos items) (b.dataOffset - pos) b.comp.length = b.comp
  | [], pos, i, k, b, h => by simp [layout] at h
  | item :: rest, pos, i, 0, b, h => by
    simp only [layout, List.getElem?_cons_zero, Option.some.injEq] at h
    subst h
    have hge := alignUp_ge pos
    refine ⟨rfl, by simp, rfl, hge, ?_, ?_⟩
    · simp only [layoutBytes, List.length_append, List.length_replicate]; omega
    · simp only [layoutBytes, List.append_assoc]
      rw [readAt_append_right _ _ _ _ (by rw [List.length_replicate]), List.length_replicate,
        Nat.sub_self, readAt_zero_append]
  | item :: rest, pos, i, k + 1, b, h => by
    simp only [layout, List.getElem?_cons_succ] at h
    obtain ⟨h1, h2, h3, h4, h5, h6⟩ := layout_getElem? c rest _ _ k b h
    have hge := alignUp_ge pos
    refine ⟨by omega, by simpa using h2, h3, by omega, ?_, ?_⟩
    · simp only [layoutBytes, List.length_append, List.length_replicate]; omega
    · simp only [layoutBytes]
      rw [readAt_append_right _ _ _ _
        (by rw [List.length_append, List.length_replicate]; omega)]
      rw [List.length_append, List.length_replicate,
        show b.dataOffset - pos - (alignUp pos - pos + (c (readAll item.path)).length)
          = b.dataOffset - (alignUp pos + (c (readAll item.path)).length) by omega]
      exact h6

/-- The metadata table has a stride of 20 bytes: the bytes of block `k` start
at `20 * k`. -/
theorem flatMap_metaBytes_readAt : ∀ (blocks : List Block) (k : Nat) (b : Block),
    blocks[k]? = some b → readAt (blocks.flatMap Block.metaBytes) (20 * k) 20 = b.metaBytes
  | [], k, b, h => by simp at h
  | b0 :: rest, 0, b, h => by
    simp only [List.getElem?_cons_zero, Option.some.injEq] at h
    subst h
    rw [List.flatMap_cons, Nat.mul_zero, ← metaBytes_length b0, readAt_zero_append]
  | b0 :: rest, k + 1, b, h => by
    simp only [List.getElem?_cons_succ] at h
    rw [List.flatMap_cons, readAt_append_right _ _ _ _ (by rw [metaBytes_length]; omega),
      metaBytes_length, show 20 * (k + 1) - 20 = 20 * k by omega]
    exact flatMap_metaBytes_readAt rest k b h

theorem flatMap_metaBytes_length : ∀ (blocks : List Block),
    (blocks.flatMap Block.metaBytes).length = 20 * blocks.length
  | [] => rfl
  | b0 :: rest => by
    rw [List.flatMap_cons, List.length_append, metaBytes_length, flatMap_metaBytes_length rest,
      List.length_cons]
    omega

theorem flatMap_toBytes_length : ∀ (es : List EntryTableEntry),
    (es.flatMap EntryTableEntry.toBytes).length = 16 * es.length
  | [] => rfl
  | e :: rest => by
    rw [List.flatMap_cons, List.length_append, flatMap_toBytes_length rest, List.length_cons]
    simp only [EntryTableEntry.toBytes, List.length_append, leBytes_length]
    omega

/-- The record of ordinal `k` in the metadata table is what `write_metadata`
appended for block `k`. -/
theorem metaRecord_layout (blocks : List Block) (k : Nat) (b : Block)
    (h : blocks[k]? = some b) :
    metaRecord (blocks.flatMap Block.metaBytes) k
      = write_metadata [] (b.comp.length % 2 ^ 32) ((readAll b.item.path).length % 2 ^ 32)
          b.dataOffset true := by
  have h1 := flatMap_metaBytes_readAt blocks k b h
  have h2 : metaRecord (blocks.flatMap Block.metaBytes) k
      = readAt (readAt (blocks.flatMap Block.metaBytes) (20 * k) 20) 4 16 := by
    unfold metaRecord readAt
    rw [List.drop_take, List.take_take, List.drop_drop]
    congr 1
  rw [h2, h1]
  unfold Block.metaBytes readAt
  show List.take 16 (write_metadata [] _ _ _ _) = _
  rw [List.take_of_length_le (by rw [write_metadata_nil_length])]

/-! ## Lemmas on the sort and the header -/

theorem insertionSortByHash_isStdSort : IsStdSort insertionSortByHash := by
  intro l
  haveI : IsTotal Item (fun a b => a.hash ≤ b.hash) := ⟨fun a b => Nat.le_total _ _⟩
  haveI : IsTrans Item (fun a b => a.hash ≤ b.hash) := ⟨fun _ _ _ h1 h2 => Nat.le_trans h1 h2⟩
  refine ⟨List.perm_insertionSort _ l, ?_⟩
  have hsorted := List.sorted_insertionSort (fun a b : Item => a.hash ≤ b.hash) l
  exact List.Pairwise.imp (fun h => Nat.not_lt.2 h) hsorted

theorem pack_entries_hash {sort : List Item → List Item} {c : List Nat → List Nat}
    {listing : List SourceFile} {r : Archive} (h : pack sort c listing = some r) :
    r.entries.map (fun e => e.hash) = r.files.map (fun it => it.hash) := by
  obtain ⟨-, -, he, -⟩ := pack_spec h
  rw [he, List.map_map]
  conv_rhs => rw [← layout_map_item c r.files 56 0, List.map_map]
  rfl

theorem pack_entries_length {sort : List Item → List Item} {c : List Nat → List Nat}
    {listing : List SourceFile} {r : Archive} (h : pack sort c listing = some r) :
    r.entries.length = r.files.length := by
  have := congrArg List.length (pack_entries_hash h)
  simpa using this

/-- The hashes of the entry table are the hashes of the enumerated files, in
non-decreasing order. -/
theorem pack_entries_hash_sorted {sort : List Item → List Item} (hs : IsStdSort sort)
    {c : List Nat → List Nat} {listing : List SourceFile} {r : Archive}
    (h : pack sort c listing = some r) :
    (r.entries.map (fun e => e.hash)).Perm
      (listing.map fun f => ScsHash (47 :: f.relPath)) ∧
    (r.entries.map (fun e => e.hash)).Pairwise (fun a b => a ≤ b) := by
  obtain ⟨-, hfiles, -⟩ := pack_spec h
  rw [pack_entries_hash h, hfiles]
  obtain ⟨hperm, hsorted⟩ := hs (collectFiles listing)
  constructor
  · have := hperm.map (fun it : Item => it.hash)
    unfold collectFiles at this
    rw [List.map_map] at this
    exact this
  · rw [List.pairwise_map]
    exact List.Pairwise.imp (fun h => Nat.not_lt.1 h) hsorted

/-- The counts and table lengths of the header, as the `u32` fields hold them. -/
theorem pack_header_counts {sort : List Item → List Item} (hs : IsStdSort sort)
    {c : List Nat → List Nat} {listing : List SourceFile} {r : Archive}
    (h : pack sort c listing = some r) :
    r.files.length = listing.length ∧
    r.header.num_entries = listing.length ∧
    r.header.num_metadata_entries = listing.length ∧
    r.header.entry_table_length = (listing.length * 16) % 2 ^ 32 ∧
    r.header.metadata_table_length = (listing.length * 20) % 2 ^ 32 := by
  obtain ⟨hlt, hfiles, -, hmeta, -, hn, hm, hel, hml, -⟩ := pack_unfold h
  obtain ⟨-, -, -, hmeta2, -⟩ := pack_spec h
  have hlen : r.files.length = listing.length := by rw [hfiles, sort_length hs]
  have hel2 := pack_entries_length h
  rw [hlen] at hel2
  rw [sort_length hs] at hlt
  rw [hel2] at hn hm hel
  have hml2 : r.metaTable.length = 20 * listing.length := by
    rw [hmeta2, flatMap_metaBytes_length, layout_length, hlen]
  rw [hml2] at hml
  refine ⟨hlen, ?_, ?_, ?_, ?_⟩
  · rw [hn]; exact Nat.mod_eq_of_lt hlt
  · rw [hm]; exact Nat.mod_eq_of_lt hlt
  · rw [hel]; omega
  · rw [hml]; omega

theorem layoutBytes_length (c : List Nat → List Nat) : ∀ (items : List Item) (pos : Nat),
    pos + (layoutBytes c pos items).length = layoutEnd c pos items
  | [], pos => rfl
  | item :: rest, pos => by
    have hge := alignUp_ge pos
    simp only [layoutBytes, layoutEnd, List.length_append, List.length_replicate]
    rw [← layoutBytes_length c rest]
    omega

/-- The entry table and the metadata table lie in the output file at the
offsets the header gives, and the metadata table ends the file. -/
theorem pack_tables_in_file {sort : List Item → List Item} {c : List Nat → List Nat}
    {listing : List SourceFile} {r : Archive} (h : pack sort c listing = some r) :
    readAt r.file r.header.entry_table_start (16 * r.entries.length)
      = r.entries.flatMap EntryTableEntry.toBytes ∧
    readAt r.file r.header.metadata_table_start r.metaTable.length = r.metaTable ∧
    r.file.length = r.header.metadata_table_start + r.metaTable.length := by
  obtain ⟨-, -, -, -, -, hes, hms, hfile⟩ := pack_spec h
  obtain ⟨-, -, -, -, -, -, -, -, -, -, -, hhdr, -⟩ := pack_unfold h
  have hL := layoutBytes_length c r.files 56
  have h1 := alignUp_ge (layoutEnd c 56 r.files)
  have h2 := alignUp_ge (r.header.entry_table_start
    + (r.entries.flatMap EntryTableEntry.toBytes).length)
  rw [← hes] at h1
  rw [← hms] at h2
  have hel := flatMap_toBytes_length r.entries
  refine ⟨?_, ?_, ?_⟩
  · rw [← hel]
    conv_lhs => rw [hfile]
    rw [readAt_append_right _ _ _ _ (by omega), readAt_append_right _ _ _ _ (by omega),
      readAt_append_right _ _ _ _ (by rw [List.length_replicate]; omega),
      List.length_replicate, hhdr,
      show r.header.entry_table_start - 56 - (layoutBytes c 56 r.files).length
        - (r.header.entry_table_start - layoutEnd c 56 r.files) = 0 by omega,
      readAt_zero_append]
  · conv_lhs => rw [hfile]
    rw [readAt_append_right _ _ _ _ (by omega), readAt_append_right _ _ _ _ (by omega),
      readAt_append_right _ _ _ _ (by rw [List.length_replicate]; omega),
      readAt_append_right _ _ _ _ (by rw [List.length_replicate]; omega),
      readAt_append_right _ _ _ _ (by simp only [List.length_replicate]; omega),
      List.length_replicate, List.length_replicate, hhdr,
      show r.header.metadata_table_start - 56 - (layoutBytes c 56 r.files).length
        - (r.header.entry_table_start - layoutEnd c 56 r.files)
        - (r.entries.flatMap EntryTableEntry.toBytes).length
        - (r.header.metadata_table_start - (r.header.entry_table_start
            + (r.entries.flatMap EntryTableEntry.toBytes).length)) = 0 by omega]
    unfold readAt
    rw [List.drop_zero, List.take_length]
  · conv_lhs => rw [hfile]
    simp only [List.length_append, List.length_replicate, hhdr]
    omega

/-! ## Lemmas on decoding a metadata record -/

theorem and_0xFF (x : Nat) : x &&& 0xFF = x % 256 := Nat.and_pow_two_sub_one_eq_mod x 8

theorem and_0x0F (x : Nat) : x &&& 0x0F = x % 16 := Nat.and_pow_two_sub_one_eq_mod x 4

theorem and_0x0FFFFFFF (x : Nat) : x &&& 0x0FFFFFFF = x % 2 ^ 28 :=
  Nat.and_pow_two_sub_one_eq_mod x 28

theorem mod16_or_0x10 (a : Nat) : (a % 16) ||| 0x10 = a % 16 + 16 := by
  have h : a % 16 < 16 := Nat.mod_lt _ (by norm_num)
  generalize a % 16 = b at h
  interval_cases b <;> rfl

/-- A reader gets the low 28 bits of `cSize` back from a record. -/
theorem recCompressedSize_write_metadata (cSize uSize offset : Nat) :
    recCompressedSize (write_metadata [] cSize uSize offset true) = cSize % 2 ^ 28 := by
  simp only [recCompressedSize, readAt, write_metadata, List.nil_append, List.append_assoc,
    List.singleton_append, List.drop_zero, List.take_succ_cons, List.take_zero, leValue,
    if_true, and_0x0FFFFFFF, and_0xFF, and_0x0F, mod16_or_0x10, Nat.shiftRight_eq_div_pow]
  omega

/-- A reader gets `offset / 16` modulo `2^32` back from a record. -/
theorem recBlockIndex_write_metadata (cSize uSize offset : Nat) (compressed : Bool) :
    recBlockIndex (write_metadata [] cSize uSize offset compressed)
      = (offset / 16) % 2 ^ 32 := by
  simp only [recBlockIndex, readAt, write_metadata, List.nil_append, List.append_assoc,
    List.singleton_append, List.cons_append, leBytes, List.drop_succ_cons, List.drop_zero,
    List.take_succ_cons, List.take_zero, leValue, BLOCK_SIZE]
  omega

/-- What `pack` leaves for the file at position `k` of the sorted list: its
entry, its recorded offset, its metadata record, and its compressed bytes in
the output file at that offset. -/
theorem pack_block {sort : List Item → List Item} {c : List Nat → List Nat}
    {listing : List SourceFile} {r : Archive} (h : pack sort c listing = some r)
    (k : Nat) (it : Item) (hk : r.files[k]? = some it) :
    ∃ off, r.dataOffsets[k]? = some off ∧
      r.entries[k]? = some { hash := it.hash, metadata_index := k, metadata_count := 1,
                             flags := 0x4 } ∧
      metaRecord r.metaTable k = write_metadata [] ((c (readAll it.path)).length % 2 ^ 32)
        ((readAll it.path).length % 2 ^ 32) off true ∧
      off % 16 = 0 ∧ 64 ≤ off ∧
      readAt r.file off (c (readAll it.path)).length = c (readAll it.path) := by
  obtain ⟨-, -, he, hm, ho, -, -, hfile⟩ := pack_spec h
  obtain ⟨-, -, -, -, -, -, -, -, -, -, -, hhdr, -⟩ := pack_unfold h
  have hklt : k < r.files.length := (List.getElem?_eq_some_iff.1 hk).1
  have hlen := layout_length c r.files 56 0
  obtain ⟨b, hb⟩ : ∃ b, (layout c 56 0 r.files)[k]? = some b :=
    ⟨_, List.getElem?_eq_getElem (by omega)⟩
  obtain ⟨h1, h2, h3, h4, h5, h6⟩ := layout_getElem? c r.files 56 0 k b hb
  have hit : b.item = it := by
    rw [hk] at h2
    exact (Option.some.inj h2).symm
  have hmod : b.dataOffset % 16 = 0 :=
    layout_dataOffset_mod c r.files 56 0 b (List.mem_iff_getElem?.2 ⟨k, hb⟩)
  rw [hit] at h3
  rw [h3] at h5 h6
  refine ⟨b.dataOffset, ?_, ?_, ?_, hmod, by omega, ?_⟩
  · rw [ho, List.getElem?_map, hb]; rfl
  · rw [he, List.getElem?_map, hb]
    simp only [Option.map_some', Block.entry, hit, h1, Nat.zero_add]
  · rw [hm, metaRecord_layout _ k b hb, h3, hit]
  · rw [hfile, readAt_append_right _ _ _ _ (by omega), hhdr, readAt_append_left _ _ _ _ (by omega)]
    exact h6

theorem numberedFiles_length (n : Nat) : (numberedFiles n).length = n := by
  unfold numberedFiles
  rw [List.length_map, List.length_range]

theorem pack_files_of_entry {sort : List Item → List Item} {c : List Nat → List Nat}
    {listing : List SourceFile} {r : Archive} (h : pack sort c listing = some r)
    {k : Nat} {e : EntryTableEntry} (he : r.entries[k]? = some e) :
    ∃ it, r.files[k]? = some it := by
  have hk := (List.getElem?_eq_some_iff.1 he).1
  rw [pack_entries_length h] at hk
  exact ⟨_, List.getElem?_eq_getElem hk⟩

theorem tagCompress_length (x : List Nat) : (tagCompress x).length = x.length + 1 := rfl

theorem tagDecompress_tagCompress (x : List Nat) : tagDecompress (tagCompress x) = x := rfl

theorem readAll_some (p x : List Nat) : readAll { relPath := p, content := some x } = x := rfl

/-- The offsets of the first two data blocks. -/
theorem layout_two (c : List Nat → List Nat) (x y : Item) :
    (layout c 56 0 [x, y]).map Block.dataOffset
      = [64, alignUp (64 + (c (readAll x.path)).length)] := rfl

theorem layout_one (c : List Nat → List Nat) (x : Item) :
    (layout c 56 0 [x]).map Block.dataOffset = [64] := rfl

/-- The sorted list of two files named `a` and `bb`, whatever they hold. -/
theorem sort_a_bb (c1 c2 : Option (List Nat)) :
    insertionSortByHash (collectFiles
      [{ relPath := ascii "a", content := c1 }, { relPath := ascii "bb", content := c2 }])
    = [{ hash := ScsHash (ascii "/a"), path := { relPath := ascii "a", content := c1 } },
       { hash := ScsHash (ascii "/bb"), path := { relPath := ascii "bb", content := c2 } }] := by
  have hle : ScsHash (47 :: ascii "a") ≤ ScsHash (47 :: ascii "bb") := by decide
  simp only [insertionSortByHash, collectFiles, List.map_cons, List.map_nil,
    List.insertionSort, List.orderedInsert, hle, if_true]
  rfl

/-! ## Claims on the packer -/

/-- C2: the hash does not depend on letter case. Two paths that are equal after
ASCII lower-casing every character have the same hash; `"/A.txt"` and `"/a.txt"`
hash alike; and packing the two files `A.txt` and `a.txt` succeeds and yields
an entry table of two entries with that same hash. -/
theorem scsHash_case_insensitive :
    (∀ p q : List Nat, p.map tolower = q.map tolower → ScsHash p = ScsHash q) ∧
    ScsHash (ascii "/A.txt") = ScsHash (ascii "/a.txt") ∧
    (∀ sort : List Item → List Item, IsStdSort sort →
      ∀ (c : List Nat → List Nat) (c1 c2 : Option (List Nat)),
      (∃ r, pack sort c [{ relPath := ascii "A.txt", content := c1 },
                         { relPath := ascii "a.txt", content := c2 }] = some r) ∧
      ∀ r : Archive,
        pack sort c [{ relPath := ascii "A.txt", content := c1 },
                     { relPath := ascii "a.txt", content := c2 }] = some r →
        r.entries.map (fun e => e.hash)
          = [ScsHash (ascii "/a.txt"), ScsHash (ascii "/a.txt")]) := by
  refine ⟨?_, by decide, ?_⟩
  · intro p q hpq
    have hnorm : normalizePath p = normalizePath q := by
      unfold normalizePath
      rw [map_tolower_erase, map_tolower_erase, hpq]
    unfold ScsHash
    simp only [hnorm]
  · intro sort hs c c1 c2
    refine ⟨pack_isSome sort c _ (by
      rw [sort_length hs]
      simp only [List.length_cons, List.length_nil]; norm_num), ?_⟩
    intro r h
    have hperm := (pack_entries_hash_sorted hs h).1
    have e1 : ScsHash (47 :: ascii "A.txt") = ScsHash (ascii "/a.txt") := by decide
    have e2 : ScsHash (47 :: ascii "a.txt") = ScsHash (ascii "/a.txt") := by decide
    simp only [List.map_cons, List.map_nil, e1, e2] at hperm
    have hrep : [ScsHash (ascii "/a.txt"), ScsHash (ascii "/a.txt")]
        = List.replicate 2 (ScsHash (ascii "/a.txt")) := rfl
    rw [hrep] at hperm ⊢
    exact List.perm_replicate.1 hperm

/-- C2 at a mixed-case path and at the archive of `A.txt` and `a.txt`. -/
theorem scsHash_case_insensitive_witness :
    ScsHash (ascii "/Def/Vehicle/TRUCK.sii") = ScsHash (ascii "/def/vehicle/truck.sii") ∧
    ∃ r, pack insertionSortByHash tagCompress
        [{ relPath := ascii "A.txt", content := some [1] },
         { relPath := ascii "a.txt", content := some [2] }] = some r ∧
      r.entries.map (fun e => e.hash)
        = [ScsHash (ascii "/a.txt"), ScsHash (ascii "/a.txt")] :=
  ⟨scsHash_case_insensitive.1 _ _ (by decide),
   _, rfl, (scsHash_case_insensitive.2.2 insertionSortByHash insertionSortByHash_isStdSort
      tagCompress (some [1]) (some [2])).2 _ rfl⟩

/-- C6: for every list of input files (fewer than `2^32`, so that the packer
returns), in whatever order the directory was enumerated, the entry table is
sorted non-decreasing by hash: an earlier entry
never has the larger hash, an entry of strictly smaller hash always comes
first, the hashes are those of the enumerated files, a different enumeration
order of the same files gives the same sequence of hashes, and the bytes of the
output file at `entry_table_start` are these entries in this order. -/
theorem entry_table_sorted (sort : List Item → List Item) (hs : IsStdSort sort)
    (c : List Nat → List Nat) (listing : List SourceFile) :
    (listing.length < 2 ^ 32 → ∃ r, pack sort c listing = some r) ∧
    ∀ r : Archive, pack sort c listing = some r →
      (∀ (i j : Nat) (a b : EntryTableEntry), i < j → r.entries[i]? = some a →
        r.entries[j]? = some b → a.hash ≤ b.hash) ∧
      (∀ (i j : Nat) (a b : EntryTableEntry), r.entries[i]? = some a →
        r.entries[j]? = some b → a.hash < b.hash → i < j) ∧
      (r.entries.map (fun e => e.hash)).Perm
        (listing.map fun f => ScsHash (47 :: f.relPath)) ∧
      (∀ (listing' : List SourceFile) (r' : Archive), listing'.Perm listing →
        pack sort c listing' = some r' →
        r'.entries.map (fun e => e.hash) = r.entries.map (fun e => e.hash)) ∧
      readAt r.file r.header.entry_table_start (16 * r.entries.length)
        = r.entries.flatMap EntryTableEntry.toBytes := by
  refine ⟨fun hlen => pack_isSome sort c listing (by rw [sort_length hs]; exact hlen), ?_⟩
  intro r h
  obtain ⟨hperm, hsorted⟩ := pack_entries_hash_sorted hs h
  have hpw : r.entries.Pairwise (fun a b => a.hash ≤ b.hash) := by
    rw [List.pairwise_map] at hsorted
    exact hsorted
  have hle : ∀ (i j : Nat) (a b : EntryTableEntry), i < j → r.entries[i]? = some a →
      r.entries[j]? = some b → a.hash ≤ b.hash := by
    intro i j a b hij ha hb
    obtain ⟨hi, rfl⟩ := List.getElem?_eq_some_iff.1 ha
    obtain ⟨hj, rfl⟩ := List.getElem?_eq_some_iff.1 hb
    exact List.pairwise_iff_getElem.1 hpw i j hi hj hij
  refine ⟨hle, ?_, hperm, ?_, (pack_tables_in_file h).1⟩
  · intro i j a b ha hb hlt
    by_contra hij
    rcases Nat.lt_or_eq_of_le (Nat.le_of_not_lt hij) with hji | hji
    · exact absurd (hle j i b a hji hb ha) (Nat.not_le.2 hlt)
    · subst hji
      rw [ha] at hb
      rw [Option.some.inj hb] at hlt
      exact absurd hlt (Nat.lt_irrefl _)
  · intro listing' r' hp h'
    obtain ⟨hperm', hsorted'⟩ := pack_entries_hash_sorted hs h'
    have hp2 := hp.map (fun f : SourceFile => ScsHash (47 :: f.relPath))
    exact List.eq_of_perm_of_sorted (hperm'.trans (hp2.trans hperm.symm)) hsorted' hsorted

/-- C6 at the sample directory. -/
theorem entry_table_sorted_witness :
    ∃ r, pack insertionSortByHash tagCompress sampleListing = some r ∧
      (∀ (i j : Nat) (a b : EntryTableEntry), i < j → r.entries[i]? = some a →
        r.entries[j]? = some b → a.hash ≤ b.hash) ∧
      (r.entries.map (fun e => e.hash)).Perm
        (sampleListing.map fun f => ScsHash (47 :: f.relPath)) :=
  ⟨_, rfl, ((entry_table_sorted insertionSortByHash insertionSortByHash_isStdSort tagCompress
      sampleListing).2 _ rfl).1,
    ((entry_table_sorted insertionSortByHash insertionSortByHash_isStdSort tagCompress
      sampleListing).2 _ rfl).2.2.1⟩

/-- C8: every recorded section offset is 16-byte aligned. For every input file
list (fewer than `2^32` files, so that the packer returns) there is one recorded
`dataOffset` per file, each a multiple of 16, and the header fields
`entry_table_start` and `metadata_table_start` are multiples of 16. -/
theorem offsets_aligned (sort : List Item → List Item) (hs : IsStdSort sort)
    (c : List Nat → List Nat) (listing : List SourceFile) :
    (listing.length < 2 ^ 32 → ∃ r, pack sort c listing = some r) ∧
    ∀ r : Archive, pack sort c listing = some r →
      r.dataOffsets.length = listing.length ∧
      (∀ off ∈ r.dataOffsets, off % 16 = 0) ∧
      r.header.entry_table_start % 16 = 0 ∧
      r.header.metadata_table_start % 16 = 0 := by
  refine ⟨fun hlen => pack_isSome sort c listing (by rw [sort_length hs]; exact hlen), ?_⟩
  intro r h
  obtain ⟨-, hfiles, -, -, ho, hes, hms, -⟩ := pack_spec h
  refine ⟨?_, ?_, ?_, ?_⟩
  · rw [ho, List.length_map, layout_length, hfiles, sort_length hs]
  · intro off hoff
    rw [ho, List.mem_map] at hoff
    obtain ⟨b, hb, rfl⟩ := hoff
    exact layout_dataOffset_mod c r.files 56 0 b hb
  · rw [hes]; exact alignUp_mod _
  · rw [hms]; exact alignUp_mod _

/-- C8 at the sample directory: the data blocks lie at 64 and 96. -/
theorem offsets_aligned_witness :
    ∃ r, pack insertionSortByHash tagCompress sampleListing = some r ∧
      r.dataOffsets = [64, 96] ∧
      (∀ off ∈ r.dataOffsets, off % 16 = 0) ∧
      r.header.entry_table_start % 16 = 0 ∧
      r.header.metadata_table_start % 16 = 0 :=
  ⟨_, rfl, rfl,
    ((offsets_aligned insertionSortByHash insertionSortByHash_isStdSort tagCompress
      sampleListing).2 _ rfl).2⟩

/-- C10 (as stated, refuted): with `2^28` files the `u32` header fields wrap:
`num_entries` is `2^28` but `entry_table_length` is `0`, not `num_entries * 16`,
and `metadata_table_length` is `2^30`, not `num_entries * 20`. -/
theorem header_lengths_counterexample :
    ∃ r, pack insertionSortByHash tagCompress (numberedFiles 268435456) = some r ∧
      r.header.num_entries = 268435456 ∧
      r.header.entry_table_length = 0 ∧
      r.header.entry_table_length ≠ r.header.num_entries * 16 ∧
      r.header.metadata_table_length = 1073741824 ∧
      r.header.metadata_table_length ≠ r.header.num_entries * 20 := by
  obtain ⟨r, hr⟩ := pack_isSome insertionSortByHash tagCompress (numberedFiles 268435456)
    (by rw [sort_length insertionSortByHash_isStdSort, numberedFiles_length]; norm_num)
  obtain ⟨-, h1, -, h3, h4⟩ := pack_header_counts insertionSortByHash_isStdSort hr
  rw [numberedFiles_length] at h1 h3 h4
  refine ⟨r, hr, h1, ?_, ?_, ?_, ?_⟩
  · rw [h3]; norm_num
  · rw [h3, h1]; norm_num
  · rw [h4]; norm_num
  · rw [h4, h1]; norm_num

/-- C10 (amended): for every input file list (fewer than `2^32` files, so that
the packer returns) the header has
`num_entries == num_metadata_entries ==` the number of packed files (which is
the number of enumerated files); `entry_table_length` is `num_entries * 16`
modulo `2^32`, hence `num_entries * 16` when there are fewer than `2^28` files;
`metadata_table_length` is `num_entries * 20` modulo `2^32`, hence
`num_entries * 20` when `20 *` the number of files is below `2^32`. -/
theorem header_counts (sort : List Item → List Item) (hs : IsStdSort sort)
    (c : List Nat → List Nat) (listing : List SourceFile) :
    (listing.length < 2 ^ 32 → ∃ r, pack sort c listing = some r) ∧
    ∀ r : Archive, pack sort c listing = some r →
      r.header.num_entries = r.header.num_metadata_entries ∧
      r.header.num_entries = r.files.length ∧
      r.files.length = listing.length ∧
      r.header.entry_table_length = (r.header.num_entries * 16) % 2 ^ 32 ∧
      r.header.metadata_table_length = (r.header.num_entries * 20) % 2 ^ 32 ∧
      (listing.length < 2 ^ 28 → r.header.entry_table_length = r.header.num_entries * 16) ∧
      (20 * listing.length < 2 ^ 32 →
        r.header.metadata_table_length = r.header.num_entries * 20) := by
  refine ⟨fun hlen => pack_isSome sort c listing (by rw [sort_length hs]; exact hlen), ?_⟩
  intro r h
  obtain ⟨h0, h1, h2, h3, h4⟩ := pack_header_counts hs h
  refine ⟨by rw [h1, h2], by rw [h1, h0], h0, by rw [h3, h1], by rw [h4, h1], ?_, ?_⟩
  · intro hlt
    rw [h3, h1]
    exact Nat.mod_eq_of_lt (by omega)
  · intro hlt
    rw [h4, h1]
    exact Nat.mod_eq_of_lt (by omega)

/-- The amended C10 at the sample directory of two files. -/
theorem header_counts_witness :
    ∃ r, pack insertionSortByHash tagCompress sampleListing = some r ∧
      r.header.num_entries = r.header.num_metadata_entries ∧
      r.header.num_entries = 2 ∧
      r.header.entry_table_length = r.header.num_entries * 16 ∧
      r.header.metadata_table_length = r.header.num_entries * 20 :=
  ⟨_, rfl,
    ((header_counts insertionSortByHash insertionSortByHash_isStdSort tagCompress
      sampleListing).2 _ rfl).1,
    rfl,
    ((header_counts insertionSortByHash insertionSortByHash_isStdSort tagCompress
      sampleListing).2 _ rfl).2.2.2.2.2.1 (by decide),
    ((header_counts insertionSortByHash insertionSortByHash_isStdSort tagCompress
      sampleListing).2 _ rfl).2.2.2.2.2.2 (by decide)⟩

/-- Two files `a` and `bb`, the first with `2^36 - 1` bytes: the second data
block lies at `2^36 + 64` and the block index stored for it is `4`. -/
theorem block_index_two_files (content : List Nat) (hlen : content.length = 68719476735) :
    ∃ r e off, pack insertionSortByHash tagCompress
        [{ relPath := ascii "a", content := some content },
         { relPath := ascii "bb", content := some [] }] = some r ∧
      r.entries[1]? = some e ∧ r.dataOffsets[1]? = some off ∧
      off = 68719476800 ∧
      recBlockIndex (metaRecord r.metaTable e.metadata_index) * 16 = 64 ∧
      recBlockIndex (metaRecord r.metaTable e.metadata_index) * 16 ≠ off := by
  obtain ⟨r, hr⟩ := pack_isSome insertionSortByHash tagCompress
    [{ relPath := ascii "a", content := some content },
     { relPath := ascii "bb", content := some [] }]
    (by rw [sort_length insertionSortByHash_isStdSort]
        simp only [List.length_cons, List.length_nil]; norm_num)
  obtain ⟨-, hfiles, -, -, ho, -⟩ := pack_spec hr
  rw [sort_a_bb] at hfiles
  have hk : r.files[1]? = some
      { hash := ScsHash (ascii "/bb"), path := { relPath := ascii "bb", content := some [] } } := by
    rw [hfiles]; rfl
  obtain ⟨off, ho1, he1, hrec, -, -, -⟩ := pack_block hr 1 _ hk
  have hoff : off = 68719476800 := by
    rw [ho, hfiles, layout_two, tagCompress_length] at ho1
    have ho2 : alignUp (64 + (content.length + 1)) = off := Option.some.inj ho1
    rw [← ho2, hlen]
    unfold alignUp
    norm_num
  have hidx : recBlockIndex (metaRecord r.metaTable 1) * 16 = 64 := by
    rw [hrec, recBlockIndex_write_metadata, hoff]
    norm_num
  refine ⟨r, _, off, hr, he1, ho1, hoff, hidx, ?_⟩
  show recBlockIndex (metaRecord r.metaTable 1) * 16 ≠ off
  rw [hidx, hoff]
  norm_num

/-- C9 (as stated, refuted): a first file of `2^36 - 1` bytes behind a one-byte
tag pushes the second data block to offset `2^36 + 64`; the 32-bit block index
stored for it is `4`, which multiplied by 16 gives `64`, not the offset. -/
theorem block_index_counterexample :
    ∃ r e off, pack insertionSortByHash tagCompress
        [{ relPath := ascii "a", content := some (List.replicate 68719476735 0) },
         { relPath := ascii "bb", content := some [] }] = some r ∧
      r.entries[1]? = some e ∧ r.dataOffsets[1]? = some off ∧
      off = 68719476800 ∧
      recBlockIndex (metaRecord r.metaTable e.metadata_index) * 16 = 64 ∧
      recBlockIndex (metaRecord r.metaTable e.metadata_index) * 16 ≠ off :=
  block_index_two_files (List.replicate 68719476735 0) (List.length_replicate _ _)

/-- C9 (amended): for every entry written by the packer the recorded
`dataOffset` is a multiple of 16 and the block index stored in bytes 12..15 of
its metadata record is `dataOffset / 16` modulo `2^32`; multiplied by 16 it
reconstructs `dataOffset` exactly whenever `dataOffset < 2^36`. -/
theorem block_index_reconstructs (sort : List Item → List Item) (hs : IsStdSort sort)
    (c : List Nat → List Nat) (listing : List SourceFile) :
    (listing.length < 2 ^ 32 → ∃ r, pack sort c listing = some r) ∧
    ∀ (r : Archive) (k : Nat) (e : EntryTableEntry),
      pack sort c listing = some r → r.entries[k]? = some e →
      ∃ off, r.dataOffsets[k]? = some off ∧ off % 16 = 0 ∧
        recBlockIndex (metaRecord r.metaTable e.metadata_index) = (off / 16) % 2 ^ 32 ∧
        (off < 2 ^ 36 →
          recBlockIndex (metaRecord r.metaTable e.metadata_index) * 16 = off) := by
  refine ⟨fun hlen => pack_isSome sort c listing (by rw [sort_length hs]; exact hlen), ?_⟩
  intro r k e h he
  obtain ⟨it, hit⟩ := pack_files_of_entry h he
  obtain ⟨off, ho, he2, hrec, hmod, -, -⟩ := pack_block h k it hit
  rw [he] at he2
  have hidx : e.metadata_index = k := by rw [Option.some.inj he2]
  rw [hidx, hrec, recBlockIndex_write_metadata]
  refine ⟨off, ho, hmod, rfl, ?_⟩
  intro hlt
  omega

/-- The amended C9 at the second entry of the sample directory. -/
theorem block_index_reconstructs_witness :
    ∃ r e off, pack insertionSortByHash tagCompress sampleListing = some r ∧
      r.entries[1]? = some e ∧ r.dataOffsets[1]? = some off ∧ off = 96 ∧
      recBlockIndex (metaRecord r.metaTable e.metadata_index) * 16 = 96 := by
  obtain ⟨off, h1, -, -, h4⟩ := (block_index_reconstructs insertionSortByHash
    insertionSortByHash_isStdSort tagCompress sampleListing).2 _ 1 _ rfl rfl
  have hoff : off = 96 := (Option.some.inj h1).symm
  exact ⟨_, _, off, rfl, rfl, h1, hoff, by rw [h4 (by rw [hoff]; norm_num), hoff]⟩

/-- One file of `2^28 - 1` bytes behind a one-byte tag: the compressed size
`2^28` does not fit the 28-bit field, the record says `0`, and what a reader
decompresses from the archive is not the content. -/
theorem round_trip_one_file (content : List Nat) (hlen : content.length = 268435455) :
    ∃ r e, pack insertionSortByHash tagCompress
        [{ relPath := ascii "a", content := some content }] = some r ∧
      r.entries[0]? = some e ∧
      recCompressedSize (metaRecord r.metaTable e.metadata_index) = 0 ∧
      tagDecompress (readAt r.file
        (recBlockIndex (metaRecord r.metaTable e.metadata_index) * 16)
        (recCompressedSize (metaRecord r.metaTable e.metadata_index))) ≠ content := by
  obtain ⟨r, hr⟩ := pack_isSome insertionSortByHash tagCompress
    [{ relPath := ascii "a", content := some content }]
    (by rw [sort_length insertionSortByHash_isStdSort]
        simp only [List.length_cons, List.length_nil]; norm_num)
  obtain ⟨-, hfiles, -⟩ := pack_spec hr
  have hk : r.files[0]? = some
      { hash := ScsHash (47 :: ascii "a"),
        path := { relPath := ascii "a", content := some content } } := by
    rw [hfiles]; rfl
  obtain ⟨off, -, he, hrec, -, -, -⟩ := pack_block hr 0 _ hk
  have hsize : recCompressedSize (metaRecord r.metaTable 0) = 0 := by
    rw [hrec, recCompressedSize_write_metadata, tagCompress_length, readAll_some, hlen]
    norm_num
  refine ⟨r, _, hr, he, hsize, ?_⟩
  show tagDecompress (readAt r.file (recBlockIndex (metaRecord r.metaTable 0) * 16)
    (recCompressedSize (metaRecord r.metaTable 0))) ≠ content
  rw [hsize]
  intro hbad
  have hl := congrArg List.length hbad
  rw [hlen] at hl
  simp [tagDecompress, readAt] at hl

/-- C7 (as stated, refuted): with the inverse pair `tagCompress`,
`tagDecompress`, a file of `2^28 - 1` bytes is stored with a compressed size of
`2^28`; the 28-bit size field of its record reads `0`, so decompressing what a
reader takes from the archive does not give the content back. -/
theorem round_trip_counterexample :
    (∀ x, tagDecompress (tagCompress x) = x) ∧
    ∃ r e, pack insertionSortByHash tagCompress
        [{ relPath := ascii "a", content := some (List.replicate 268435455 0) }] = some r ∧
      r.entries[0]? = some e ∧
      recCompressedSize (metaRecord r.metaTable e.metadata_index) = 0 ∧
      tagDecompress (readAt r.file
        (recBlockIndex (metaRecord r.metaTable e.metadata_index) * 16)
        (recCompressedSize (metaRecord r.metaTable e.metadata_index)))
        ≠ List.replicate 268435455 0 :=
  ⟨tagDecompress_tagCompress,
    round_trip_one_file (List.replicate 268435455 0) (List.length_replicate _ _)⟩

/-- C7 (amended): round trip within the field widths. Every enumerated file is
packed at some position of the sorted list; and for every packed file with
content `C`, given a `decompress` that inverts `compress`, if the compressed
size is below `2^28` and the data block starts below `2^36`, then reading
`compressedSize` bytes of the output archive at `blockIndex * 16` (both taken
from the metadata record the file's entry points to) and decompressing them
yields exactly `C`. -/
theorem round_trip (sort : List Item → List Item) (hs : IsStdSort sort)
    (compress decompress : List Nat → List Nat)
    (hinv : ∀ x, decompress (compress x) = x)
    (listing : List SourceFile) :
    (listing.length < 2 ^ 32 → ∃ r, pack sort compress listing = some r) ∧
    ∀ r : Archive, pack sort compress listing = some r →
      (∀ f ∈ listing, ∃ (k : Nat) (it : Item), r.files[k]? = some it ∧ it.path = f) ∧
      (∀ (k : Nat) (it : Item) (e : EntryTableEntry) (content : List Nat),
        r.files[k]? = some it → r.entries[k]? = some e → it.path.content = some content →
        ∃ off, r.dataOffsets[k]? = some off ∧
          ((compress content).length < 2 ^ 28 → off < 2 ^ 36 →
            decompress (readAt r.file
              (recBlockIndex (metaRecord r.metaTable e.metadata_index) * 16)
              (recCompressedSize (metaRecord r.metaTable e.metadata_index))) = content)) := by
  refine ⟨fun hlen => pack_isSome sort compress listing
    (by rw [sort_length hs]; exact hlen), ?_⟩
  intro r h
  constructor
  · intro f hf
    obtain ⟨-, hfiles, -⟩ := pack_spec h
    have hmem : ({ hash := ScsHash (47 :: f.relPath), path := f } : Item)
        ∈ sort (collectFiles listing) := by
      rw [(hs (collectFiles listing)).1.mem_iff]
      unfold collectFiles
      exact List.mem_map.2 ⟨f, hf, rfl⟩
    rw [← hfiles] at hmem
    obtain ⟨k, hk⟩ := List.getElem?_of_mem hmem
    exact ⟨k, _, hk, rfl⟩
  · intro k it e content hk he hcontent
    obtain ⟨off, ho, he2, hrec, hmod, -, hread⟩ := pack_block h k it hk
    rw [he] at he2
    have hidx : e.metadata_index = k := by rw [Option.some.inj he2]
    have hraw : readAll it.path = content := by
      unfold readAll; rw [hcontent]; rfl
    rw [hraw] at hrec hread
    refine ⟨off, ho, ?_⟩
    intro hsize hoff
    rw [hidx, hrec, recBlockIndex_write_metadata, recCompressedSize_write_metadata]
    have h1 : (compress content).length % 2 ^ 32 % 2 ^ 28 = (compress content).length := by
      omega
    have h2 : off / 16 % 2 ^ 32 * 16 = off := by omega
    rw [h1, h2, hread, hinv]

/-- The amended C7 at `readme.md` of the sample directory. -/
theorem round_trip_witness :
    ∃ r, pack insertionSortByHash tagCompress sampleListing = some r ∧
      tagDecompress (readAt r.file (recBlockIndex (metaRecord r.metaTable 1) * 16)
        (recCompressedSize (metaRecord r.metaTable 1))) = ascii "hello" := by
  obtain ⟨off, ho, hrt⟩ := ((round_trip insertionSortByHash insertionSortByHash_isStdSort
    tagCompress tagDecompress tagDecompress_tagCompress sampleListing).2 _ rfl).2 1
      { hash := ScsHash (ascii "/readme.md"),
        path := { relPath := ascii "readme.md", content := some (ascii "hello") } }
      { hash := ScsHash (ascii "/readme.md"), metadata_index := 1, metadata_count := 1,
        flags := 4 }
      (ascii "hello") (by decide) (by decide) rfl
  have hoff : off = 96 := (Option.some.inj ho).symm
  exact ⟨_, rfl, hrt (by decide) (by rw [hoff]; norm_num)⟩

/-! ## Claims on the metadata encoder -/

/-- The sixteen bytes `write_metadata` appends, one by one. -/
theorem write_metadata_nil (cSize uSize offset : Nat) (compressed : Bool) :
    write_metadata [] cSize uSize offset compressed
      = [cSize % 256, cSize / 2 ^ 8 % 256, cSize / 2 ^ 16 % 256,
         (cSize / 2 ^ 24 % 16) ||| (if compressed then 0x10 else 0x00),
         uSize % 256, uSize / 2 ^ 8 % 256, uSize / 2 ^ 16 % 256, uSize / 2 ^ 24 % 16,
         0, 0, 0, 0,
         offset / 16 % 2 ^ 32 % 256, offset / 16 % 2 ^ 32 / 256 % 256,
         offset / 16 % 2 ^ 32 / 256 / 256 % 256,
         offset / 16 % 2 ^ 32 / 256 / 256 / 256 % 256] := by
  simp only [write_metadata, List.nil_append, List.append_assoc, List.singleton_append,
    List.cons_append, leBytes, and_0xFF, and_0x0F, Nat.shiftRight_eq_div_pow, BLOCK_SIZE,
    Nat.zero_div, Nat.zero_mod]

theorem flag_byte_bits (x : Nat) (compressed : Bool) :
    (((x % 16) ||| (if compressed then 0x10 else 0x00)) &&& 0x10 = 0x10 ↔ compressed = true) ∧
    ((x % 16) ||| (if compressed then 0x10 else 0x00)) &&& 0xE0 = 0 := by
  have h : x % 16 < 16 := Nat.mod_lt _ (by norm_num)
  generalize x % 16 = b at h
  cases compressed <;> interval_cases b <;> decide

theorem low_nibble_bits (x : Nat) : (x % 16) &&& 0xF0 = 0 := by
  have h : x % 16 < 16 := Nat.mod_lt _ (by norm_num)
  generalize x % 16 = b at h
  interval_cases b <;> rfl

/-- C11: for all `cSize`, `uSize`, `offset` and `compressed`, in the 16 bytes
`write_metadata` appends to any buffer, bit `0x10` of the byte of index 3 is set
if and only if `compressed` is true, the top three bits of that byte are zero,
and the byte of index 7 (the top byte of the uncompressed-size field) has its
whole top nibble zero. -/
theorem write_metadata_flag_bits (buf : List Nat) (cSize uSize offset : Nat)
    (compressed : Bool) :
    ∃ b3 b7 : Nat,
      ((write_metadata buf cSize uSize offset compressed).drop buf.length)[3]? = some b3 ∧
      ((write_metadata buf cSize uSize offset compressed).drop buf.length)[7]? = some b7 ∧
      (b3 &&& 0x10 = 0x10 ↔ compressed = true) ∧
      b3 &&& 0xE0 = 0 ∧
      b7 &&& 0xF0 = 0 := by
  rw [write_metadata_append, List.drop_left' rfl, write_metadata_nil]
  exact ⟨_, _, rfl, rfl, (flag_byte_bits _ compressed).1, (flag_byte_bits _ compressed).2,
    low_nibble_bits _⟩

/-- A reader gets the low 28 bits of `cSize` back, whatever the flag. -/
theorem recCompressedSize_write_metadata_flag (cSize uSize offset : Nat) (compressed : Bool) :
    recCompressedSize (write_metadata [] cSize uSize offset compressed) = cSize % 2 ^ 28 := by
  cases compressed
  · rw [write_metadata_nil]
    simp only [recCompressedSize, readAt, List.drop_zero, List.take_succ_cons, List.take_zero,
      leValue, and_0x0FFFFFFF, Bool.false_eq_true, if_false, Nat.or_zero]
    omega
  · exact recCompressedSize_write_metadata cSize uSize offset

/-- A reader gets the low 28 bits of `uSize` back from a record. -/
theorem recUncompressedSize_write_metadata (cSize uSize offset : Nat) (compressed : Bool) :
    recUncompressedSize (write_metadata [] cSize uSize offset compressed)
      = uSize % 2 ^ 28 := by
  rw [write_metadata_nil]
  simp only [recUncompressedSize, readAt, List.drop_succ_cons, List.drop_zero,
    List.take_succ_cons, List.take_zero, leValue, and_0x0FFFFFFF]
  omega

/-- C19: size fields round-trip within range. For `cSize < 2^28` and
`uSize < 2^28`, any offset and any flag, bytes 0..3 of the output of
`write_metadata` read as a little-endian word and masked with `0x0FFFFFFF` give
`cSize`, bytes 4..7 give `uSize` in the same way, and bytes 8..11 are zero. -/
theorem size_fields_round_trip (cSize uSize offset : Nat) (compressed : Bool)
    (hc : cSize < 2 ^ 28) (hu : uSize < 2 ^ 28) :
    leValue (readAt (write_metadata [] cSize uSize offset compressed) 0 4) &&& 0x0FFFFFFF
      = cSize ∧
    leValue (readAt (write_metadata [] cSize uSize offset compressed) 4 4) &&& 0x0FFFFFFF
      = uSize ∧
    readAt (write_metadata [] cSize uSize offset compressed) 8 4 = [0, 0, 0, 0] := by
  refine ⟨?_, ?_, ?_⟩
  · have h := recCompressedSize_write_metadata_flag cSize uSize offset compressed
    unfold recCompressedSize at h
    rw [h, Nat.mod_eq_of_lt hc]
  · have h := recUncompressedSize_write_metadata cSize uSize offset compressed
    unfold recUncompressedSize at h
    rw [h, Nat.mod_eq_of_lt hu]
  · rw [write_metadata_nil]
    rfl

/-- C19 at `cSize = 21`, `uSize = 0x0ABCDEF`, offset 4096, flag set. -/
theorem size_fields_round_trip_witness :
    leValue (readAt (write_metadata [] 21 0x0ABCDEF 4096 true) 0 4) &&& 0x0FFFFFFF = 21 ∧
    leValue (readAt (write_metadata [] 21 0x0ABCDEF 4096 true) 4 4) &&& 0x0FFFFFFF
      = 0x0ABCDEF ∧
    readAt (write_metadata [] 21 0x0ABCDEF 4096 true) 8 4 = [0, 0, 0, 0] :=
  size_fields_round_trip 21 0x0ABCDEF 4096 true (by decide) (by decide)

/-! ## Claims on the tables of the archive -/

/-- The metadata table has 20 bytes per file, each run of 20 opening with the
prefix `[128, 0, 0, 0]`. -/
theorem pack_meta_stride {sort : List Item → List Item} {c : List Nat → List Nat}
    {listing : List SourceFile} {r : Archive} (h : pack sort c listing = some r) :
    r.metaTable.length = 20 * r.files.length ∧
    ∀ (k : Nat) (it : Item), r.files[k]? = some it →
      readAt r.metaTable (20 * k) 4 = [128, 0, 0, 0] := by
  obtain ⟨-, -, -, hm, -⟩ := pack_spec h
  refine ⟨by rw [hm, flatMap_metaBytes_length, layout_length], ?_⟩
  intro k it hk
  have hklt : k < r.files.length := (List.getElem?_eq_some_iff.1 hk).1
  have hlen := layout_length c r.files 56 0
  obtain ⟨b, hb⟩ : ∃ b, (layout c 56 0 r.files)[k]? = some b :=
    ⟨_, List.getElem?_eq_getElem (by omega)⟩
  have h20 := flatMap_metaBytes_readAt _ k b hb
  have h4 : readAt r.metaTable (20 * k) 4 = readAt (readAt r.metaTable (20 * k) 20) 0 4 := by
    unfold readAt
    rw [List.drop_zero, List.take_take]
    rfl
  rw [h4, hm, h20]
  rfl

/-- Every packed item carries the hash of its own path. -/
theorem pack_files_hash {sort : List Item → List Item} (hs : IsStdSort sort)
    {c : List Nat → List Nat} {listing : List SourceFile} {r : Archive}
    (h : pack sort c listing = some r) (it : Item) (hit : it ∈ r.files) :
    it.hash = ScsHash (47 :: it.path.relPath) ∧ it.path ∈ listing := by
  obtain ⟨-, hfiles, -⟩ := pack_spec h
  rw [hfiles, (hs (collectFiles listing)).1.mem_iff] at hit
  unfold collectFiles at hit
  obtain ⟨f, hf, rfl⟩ := List.mem_map.1 hit
  exact ⟨rfl, hf⟩

/-- C15: packing the single file `a.txt` (hashed as `"/a.txt"`) with the two
bytes `"hi"` succeeds, for any compress function, with exactly one entry and
exactly one 20-byte metadata record; the 28-bit uncompressed-size field of the
record decodes to 2 and bit `0x10` of the fourth byte of its compressed-size
field is set. -/
theorem single_file_hi (sort : List Item → List Item) (hs : IsStdSort sort)
    (c : List Nat → List Nat) :
    ∃ r, pack sort c [{ relPath := ascii "a.txt", content := some (ascii "hi") }] = some r ∧
      r.entries.length = 1 ∧ r.header.num_entries = 1 ∧
      r.entries.map (fun e => e.hash) = [ScsHash (ascii "/a.txt")] ∧
      r.metaTable.length = 20 ∧
      recUncompressedSize (metaRecord r.metaTable 0) = 2 ∧
      ∃ b3, (metaRecord r.metaTable 0)[3]? = some b3 ∧ b3 &&& 0x10 = 0x10 := by
  obtain ⟨r, h⟩ := pack_isSome sort c
    [{ relPath := ascii "a.txt", content := some (ascii "hi") }]
    (by rw [sort_length hs]; simp only [List.length_cons, List.length_nil]; norm_num)
  obtain ⟨h0, h1, -⟩ := pack_header_counts hs h
  obtain ⟨-, hfiles, -⟩ := pack_spec h
  have hone : r.files =
      [{ hash := ScsHash (ascii "/a.txt"),
         path := { relPath := ascii "a.txt", content := some (ascii "hi") } }] := by
    rw [hfiles]
    exact List.perm_singleton.1 (hs _).1
  have hk : r.files[0]? = some
      { hash := ScsHash (ascii "/a.txt"),
        path := { relPath := ascii "a.txt", content := some (ascii "hi") } } := by
    rw [hone]; rfl
  obtain ⟨off, -, -, hrec, -⟩ := pack_block h 0 _ hk
  have hlen := pack_entries_length h
  have hstride := (pack_meta_stride h).1
  rw [h0] at hlen hstride
  refine ⟨r, h, hlen, h1, ?_, hstride, ?_, ?_⟩
  · rw [pack_entries_hash h, hone]; rfl
  · rw [hrec, recUncompressedSize_write_metadata, readAll_some]
    decide
  · rw [hrec, write_metadata_nil]
    exact ⟨_, rfl, (flag_byte_bits _ true).1.2 rfl⟩

/-- C15 with insertion sort and the tagging compressor. -/
theorem single_file_hi_witness :
    ∃ r, pack insertionSortByHash tagCompress
        [{ relPath := ascii "a.txt", content := some (ascii "hi") }] = some r ∧
      r.entries.length = 1 ∧ r.header.num_entries = 1 ∧
      r.entries.map (fun e => e.hash) = [ScsHash (ascii "/a.txt")] ∧
      r.metaTable.length = 20 ∧
      recUncompressedSize (metaRecord r.metaTable 0) = 2 ∧
      ∃ b3, (metaRecord r.metaTable 0)[3]? = some b3 ∧ b3 &&& 0x10 = 0x10 :=
  single_file_hi insertionSortByHash insertionSortByHash_isStdSort tagCompress

theorem readAt_add (l : List Nat) (off a b : Nat) :
    readAt l off (a + b) = readAt l off a ++ readAt l (off + a) b := by
  unfold readAt
  rw [List.take_add, List.drop_drop]

/-- The 20 bytes of the metadata table that belong to the file at position `k`. -/
theorem pack_meta_bytes {sort : List Item → List Item} {c : List Nat → List Nat}
    {listing : List SourceFile} {r : Archive} (h : pack sort c listing = some r)
    (k : Nat) (it : Item) (hk : r.files[k]? = some it) :
    ∃ off, r.dataOffsets[k]? = some off ∧
      readAt r.metaTable (20 * k) 20 = [128, 0, 0, 0] ++
        write_metadata [] ((c (readAll it.path)).length % 2 ^ 32)
          ((readAll it.path).length % 2 ^ 32) off true := by
  obtain ⟨off, ho, -, hrec, -⟩ := pack_block h k it hk
  refine ⟨off, ho, ?_⟩
  rw [show (20 : Nat) = 4 + 16 from rfl, readAt_add, (pack_meta_stride h).2 k it hk]
  unfold metaRecord at hrec
  rw [hrec]

/-- C16: for every input file list (fewer than `2^32` files, so that the packer
returns) and every `k` below the number of files, the `k`-th entry has the hash
of the `k`-th file in sorted order (the hash of its path), `metadata_index == k`,
`metadata_count == 1` and `flags == 0x4`; the bytes `20k .. 20k+19` of the
metadata blob are the prefix and the record of that same file's data block (its
sizes, its offset, where the output file holds its compressed bytes), with bit
`0x10` of the flag byte set, as bit `0x4` is in the entry. -/
theorem entry_and_record_agree (sort : List Item → List Item) (hs : IsStdSort sort)
    (c : List Nat → List Nat) (listing : List SourceFile) :
    (listing.length < 2 ^ 32 → ∃ r, pack sort c listing = some r) ∧
    ∀ r : Archive, pack sort c listing = some r →
      r.entries.length = listing.length ∧ r.files.length = listing.length ∧
      ∀ (k : Nat) (it : Item), r.files[k]? = some it →
        it.hash = ScsHash (47 :: it.path.relPath) ∧
        ∃ (e : EntryTableEntry) (off b : Nat),
          r.entries[k]? = some e ∧ e.hash = it.hash ∧ e.metadata_index = k ∧
          e.metadata_count = 1 ∧ e.flags = 0x4 ∧
          r.dataOffsets[k]? = some off ∧
          readAt r.metaTable (20 * k) 20 = [128, 0, 0, 0] ++
            write_metadata [] ((c (readAll it.path)).length % 2 ^ 32)
              ((readAll it.path).length % 2 ^ 32) off true ∧
          readAt r.file off (c (readAll it.path)).length = c (readAll it.path) ∧
          (readAt r.metaTable (20 * k) 20)[7]? = some b ∧ b &&& 0x10 = 0x10 ∧
          e.flags &&& 0x4 = 0x4 := by
  refine ⟨fun hlen => pack_isSome sort c listing (by rw [sort_length hs]; exact hlen), ?_⟩
  intro r h
  obtain ⟨h0, -⟩ := pack_header_counts hs h
  refine ⟨by rw [pack_entries_length h, h0], h0, ?_⟩
  intro k it hk
  refine ⟨(pack_files_hash hs h it (List.mem_iff_getElem?.2 ⟨k, hk⟩)).1, ?_⟩
  obtain ⟨off, ho, he, -, -, -, hread⟩ := pack_block h k it hk
  obtain ⟨off', ho', hbytes⟩ := pack_meta_bytes h k it hk
  rw [ho] at ho'
  rw [← Option.some.inj ho'] at hbytes
  refine ⟨_, off, ((c (readAll it.path)).length % 2 ^ 32 / 2 ^ 24 % 16) |||
    (if true = true then 0x10 else 0x00), he, rfl, rfl, rfl, rfl, ho, hbytes, hread, ?_, ?_,
    Nat.and_self 4⟩
  · rw [hbytes, write_metadata_nil]
    rfl
  · exact (flag_byte_bits _ true).1.2 rfl

/-- C16 at the sample directory, position 0 (`def/truck.sii`). -/
theorem entry_and_record_agree_witness :
    ∃ r, pack insertionSortByHash tagCompress sampleListing = some r ∧
      r.entries.length = 2 ∧
      ∃ (e : EntryTableEntry) (b : Nat),
        r.entries[0]? = some e ∧ e.hash = ScsHash (ascii "/def/truck.sii") ∧
        e.metadata_index = 0 ∧ e.metadata_count = 1 ∧ e.flags = 0x4 ∧
        (readAt r.metaTable (20 * 0) 20)[7]? = some b ∧ b &&& 0x10 = 0x10 := by
  obtain ⟨hlen, -, hk⟩ := (entry_and_record_agree insertionSortByHash
    insertionSortByHash_isStdSort tagCompress sampleListing).2 _ rfl
  obtain ⟨-, e, off, b, h1, h2, h3, h4, h5, -, -, -, h9, h10, -⟩ := hk 0
    { hash := ScsHash (ascii "/def/truck.sii"),
      path := { relPath := ascii "def/truck.sii",
                content := some (ascii "SiiNunit 0123456789") } } (by decide)
  exact ⟨_, rfl, hlen, e, b, h1, h2, h3, h4, h5, h9, h10⟩

/-- C17: for every buffer and all arguments `write_metadata` appends exactly 16
bytes and leaves every byte already in the buffer unchanged; consequently, for
every input file list, the metadata blob of the packer has 20 bytes per file,
and the 20 bytes of the file at position `k` are the prefix `[128, 0, 0, 0]`
followed by the 16 bytes `write_metadata` makes for that file. -/
theorem write_metadata_frame :
    (∀ (buf : List Nat) (cSize uSize offset : Nat) (compressed : Bool),
      (write_metadata buf cSize uSize offset compressed).length = buf.length + 16 ∧
      (write_metadata buf cSize uSize offset compressed).take buf.length = buf ∧
      (write_metadata buf cSize uSize offset compressed).drop buf.length
        = write_metadata [] cSize uSize offset compressed) ∧
    (∀ sort : List Item → List Item, IsStdSort sort →
      ∀ (c : List Nat → List Nat) (listing : List SourceFile),
      (listing.length < 2 ^ 32 → ∃ r, pack sort c listing = some r) ∧
      ∀ r : Archive, pack sort c listing = some r →
        r.metaTable.length = 20 * listing.length ∧
        ∀ (k : Nat) (it : Item), r.files[k]? = some it →
          ∃ off, r.dataOffsets[k]? = some off ∧
            readAt r.metaTable (20 * k) 4 = [128, 0, 0, 0] ∧
            readAt r.metaTable (20 * k + 4) 16
              = write_metadata [] ((c (readAll it.path)).length % 2 ^ 32)
                  ((readAll it.path).length % 2 ^ 32) off true) := by
  constructor
  · intro buf cSize uSize offset compressed
    rw [write_metadata_append]
    refine ⟨?_, List.take_left' rfl, List.drop_left' rfl⟩
    rw [List.length_append, write_metadata_nil_length]
  · intro sort hs c listing
    refine ⟨fun hlen => pack_isSome sort c listing (by rw [sort_length hs]; exact hlen), ?_⟩
    intro r h
    obtain ⟨h0, -⟩ := pack_header_counts hs h
    obtain ⟨hstride, hpre⟩ := pack_meta_stride h
    refine ⟨by rw [hstride, h0], ?_⟩
    intro k it hk
    obtain ⟨off, ho, -, hrec, -⟩ := pack_block h k it hk
    exact ⟨off, ho, hpre k it hk, hrec⟩

/-- C17 at a buffer of three bytes and at the sample directory. -/
theorem write_metadata_frame_witness :
    (write_metadata [1, 2, 3] 21 20 64 true).take 3 = [1, 2, 3] ∧
    ∃ r, pack insertionSortByHash tagCompress sampleListing = some r ∧
      r.metaTable.length = 20 * 2 ∧
      readAt r.metaTable (20 * 1) 4 = [128, 0, 0, 0] :=
  ⟨(write_metadata_frame.1 [1, 2, 3] 21 20 64 true).2.1,
   _, rfl,
   ((write_metadata_frame.2 insertionSortByHash insertionSortByHash_isStdSort tagCompress
      sampleListing).2 _ rfl).1,
   rfl⟩

/-! ## Claims on the layout -/

theorem alignUp_least (x : Nat) : IsLeastMultipleOf16 x (alignUp x) := by
  refine ⟨alignUp_mod x, alignUp_ge x, ?_⟩
  intro m' h1 h2
  unfold alignUp
  omega

theorem readAt_zero_append_of_length (a b : List Nat) (n : Nat) (h : a.length = n) :
    readAt (a ++ b) 0 n = a := by
  rw [← h]; exact readAt_zero_append a b

/-- Consecutive blocks: the later one starts at the aligned end of the earlier
one, and the bytes between them are zeros. -/
theorem layout_consecutive (c : List Nat → List Nat) : ∀ (items : List Item) (pos i k : Nat)
    (b b' : Block), (layout c pos i items)[k]? = some b →
    (layout c pos i items)[k + 1]? = some b' →
    b'.dataOffset = alignUp (b.dataOffset + b.comp.length) ∧
    readAt (layoutBytes c pos items) (b.dataOffset + b.comp.length - pos)
        (b'.dataOffset - (b.dataOffset + b.comp.length))
      = List.replicate (b'.dataOffset - (b.dataOffset + b.comp.length)) 0
  | [], pos, i, k, b, b', h, _ => by simp [layout] at h
  | [item], pos, i, 0, b, b', _, h' => by simp [layout] at h'
  | item :: item2 :: rest, pos, i, 0, b, b', h, h' => by
    simp only [layout, List.getElem?_cons_zero, List.getElem?_cons_succ,
      Option.some.injEq] at h h'
    subst h
    subst h'
    have hge := alignUp_ge pos
    refine ⟨rfl, ?_⟩
    simp only [layoutBytes]
    rw [readAt_append_right _ _ _ _
      (by rw [List.length_append, List.length_replicate]; omega)]
    rw [List.length_append, List.length_replicate,
      show alignUp pos + (c (readAll item.path)).length - pos
        - (alignUp pos - pos + (c (readAll item.path)).length) = 0 by omega,
      List.append_assoc]
    exact readAt_zero_append_of_length _ _ _ (List.length_replicate _ _)
  | item :: rest, pos, i, k + 1, b, b', h, h' => by
    simp only [layout, List.getElem?_cons_succ] at h h'
    obtain ⟨ih1, ih2⟩ := layout_consecutive c rest _ _ k b b' h h'
    obtain ⟨-, -, -, h4, -, -⟩ := layout_getElem? c rest _ _ k b h
    have hge := alignUp_ge pos
    refine ⟨ih1, ?_⟩
    simp only [layoutBytes]
    rw [readAt_append_right _ _ _ _
      (by rw [List.length_append, List.length_replicate]; omega)]
    rw [List.length_append, List.length_replicate,
      show b.dataOffset + b.comp.length - pos
          - (alignUp pos - pos + (c (readAll item.path)).length)
        = b.dataOffset + b.comp.length
          - (alignUp pos + (c (readAll item.path)).length) by omega]
    exact ih2

/-- The per-file loop leaves the stream at the end of the last block. -/
theorem layoutEnd_last (c : List Nat → List Nat) : ∀ (items : List Item) (pos i k : Nat)
    (b : Block), items.length = k + 1 → (layout c pos i items)[k]? = some b →
    layoutEnd c pos items = b.dataOffset + b.comp.length
  | [], pos, i, k, b, hlen, _ => by simp at hlen
  | [item], pos, i, 0, b, _, h => by
    simp only [layout, List.getElem?_cons_zero, Option.some.injEq] at h
    subst h
    rfl
  | item :: item2 :: rest, pos, i, 0, b, hlen, _ => by simp at hlen
  | [item], pos, i, k + 1, b, hlen, _ => by simp at hlen
  | item :: item2 :: rest, pos, i, k + 1, b, hlen, h => by
    simp only [layout, List.getElem?_cons_succ] at h
    have hlen2 : (item2 :: rest).length = k + 1 := by
      simp only [List.length_cons] at hlen ⊢; omega
    have ih := layoutEnd_last c (item2 :: rest) _ (i + 1) k b hlen2
      (by simp only [layout]; exact h)
    simp only [layoutEnd] at ih ⊢
    exact ih

/-- The block behind a recorded offset. -/
theorem pack_layout_of_offset {sort : List Item → List Item} {c : List Nat → List Nat}
    {listing : List SourceFile} {r : Archive} (h : pack sort c listing = some r)
    (k off : Nat) (ho : r.dataOffsets[k]? = some off) :
    ∃ b, (layout c 56 0 r.files)[k]? = some b ∧ b.dataOffset = off ∧
      r.files[k]? = some b.item ∧ b.comp = c (readAll b.item.path) ∧
      56 ≤ b.dataOffset ∧
      b.dataOffset + b.comp.length ≤ 56 + (layoutBytes c 56 r.files).length := by
  obtain ⟨-, -, -, -, hoff, -⟩ := pack_spec h
  rw [hoff, List.getElem?_map] at ho
  cases hb : (layout c 56 0 r.files)[k]? with
  | none => rw [hb] at ho; simp at ho
  | some b =>
    rw [hb] at ho
    obtain ⟨-, h2, h3, h4, h5, -⟩ := layout_getElem? c r.files 56 0 k b hb
    exact ⟨b, rfl, Option.some.inj ho, h2, h3, h4, h5⟩

/-- C18: the layout is tight and non-overlapping. `align16` on a stream whose
put position is at or beyond the end of the file appends fewer than 16 bytes,
all zero, and stops at the least multiple of 16 at or after the position. In
the archive of every input file list: bytes 56..63 are zero and the first data
block starts at 64; each later block starts at the least multiple of 16 at or
after the end of the block before it, with fewer than 16 bytes between them,
all zero; `entry_table_start` is the least multiple of 16 at or after the end
of the last data block (64 when there is none), with zeros in between; and
`metadata_table_start` is the least multiple of 16 at or after
`entry_table_start + 16 * num_entries`, which is that sum itself. -/
theorem layout_tight :
    (∀ f : OStream, f.bytes.length ≤ f.pos →
      ∃ n, n < 16 ∧ (align16 f).pos = f.pos + n ∧
        (align16 f).view = f.view ++ List.replicate n 0 ∧
        IsLeastMultipleOf16 f.pos (align16 f).pos) ∧
    (∀ sort : List Item → List Item, IsStdSort sort →
      ∀ (c : List Nat → List Nat) (listing : List SourceFile),
      (listing.length < 2 ^ 32 → ∃ r, pack sort c listing = some r) ∧
      ∀ r : Archive, pack sort c listing = some r →
        readAt r.file 56 8 = List.replicate 8 0 ∧
        (∀ off, r.dataOffsets[0]? = some off → off = 64) ∧
        (∀ (k : Nat) (it : Item) (off off' : Nat), r.files[k]? = some it →
          r.dataOffsets[k]? = some off → r.dataOffsets[k + 1]? = some off' →
          IsLeastMultipleOf16 (off + (c (readAll it.path)).length) off' ∧
          off' - (off + (c (readAll it.path)).length) < 16 ∧
          readAt r.file (off + (c (readAll it.path)).length)
              (off' - (off + (c (readAll it.path)).length))
            = List.replicate (off' - (off + (c (readAll it.path)).length)) 0) ∧
        (r.files = [] → r.header.entry_table_start = 64) ∧
        (∀ (k : Nat) (it : Item) (off : Nat), r.files.length = k + 1 →
          r.files[k]? = some it → r.dataOffsets[k]? = some off →
          IsLeastMultipleOf16 (off + (c (readAll it.path)).length)
            r.header.entry_table_start ∧
          readAt r.file (off + (c (readAll it.path)).length)
              (r.header.entry_table_start - (off + (c (readAll it.path)).length))
            = List.replicate
                (r.header.entry_table_start - (off + (c (readAll it.path)).length)) 0) ∧
        IsLeastMultipleOf16 (r.header.entry_table_start + 16 * r.header.num_entries)
          r.header.metadata_table_start ∧
        r.header.metadata_table_start
          = r.header.entry_table_start + 16 * r.header.num_entries) := by
  constructor
  · intro f hw
    obtain ⟨h1, h2, -⟩ := align16_spec f hw
    have hge := alignUp_ge f.pos
    have hlt := alignUp_lt f.pos
    refine ⟨alignUp f.pos - f.pos, by omega, by rw [h1]; omega, h2, ?_⟩
    rw [h1]; exact alignUp_least _
  · intro sort hs c listing
    refine ⟨fun hlen => pack_isSome sort c listing (by rw [sort_length hs]; exact hlen), ?_⟩
    intro r h
    obtain ⟨-, -, he, -, hoff, hes, hms, hfile⟩ := pack_spec h
    obtain ⟨-, -, -, -, -, -, -, -, -, -, -, hhdr, -⟩ := pack_unfold h
    obtain ⟨h0, h1, -⟩ := pack_header_counts hs h
    have hL := layoutBytes_length c r.files 56
    have hesge := alignUp_ge (layoutEnd c 56 r.files)
    rw [← hes] at hesge
    refine ⟨?_, ?_, ?_, ?_, ?_, ?_, ?_⟩
    · conv_lhs => rw [hfile]
      rw [readAt_append_right _ _ _ _ (by omega), hhdr, Nat.sub_self]
      cases hf : r.files with
      | nil =>
        rw [hf] at hes
        have hes2 : r.header.entry_table_start = 64 := by
          rw [hes]; show alignUp 56 = 64; decide
        simp only [layoutBytes, layoutEnd, List.nil_append, hes2]
        exact readAt_zero_append_of_length _ _ _ (List.length_replicate _ _)
      | cons item rest =>
        simp only [layoutBytes, List.append_assoc]
        exact readAt_zero_append_of_length _ _ _ (by rw [List.length_replicate]; decide)
    · intro off ho
      obtain ⟨b, hb, hbo, -⟩ := pack_layout_of_offset h 0 off ho
      cases hf : r.files with
      | nil => rw [hf] at hb; simp [layout] at hb
      | cons item rest =>
        rw [hf] at hb
        simp only [layout, List.getElem?_cons_zero, Option.some.injEq] at hb
        rw [← hbo, ← hb]
        show alignUp 56 = 64
        decide
    · intro k it off off' hk ho ho'
      obtain ⟨b, hb, hbo, hbi, hbc, hb56, -⟩ := pack_layout_of_offset h k off ho
      obtain ⟨b', hb', hbo', -, -, -, hb'end⟩ := pack_layout_of_offset h (k + 1) off' ho'
      rw [hk] at hbi
      have hit : b.item = it := (Option.some.inj hbi).symm
      rw [hit] at hbc
      obtain ⟨hc1, hc2⟩ := layout_consecutive c r.files 56 0 k b b' hb hb'
      rw [hbo, hbo', hbc] at hc1 hc2
      rw [hbo] at hb56
      rw [hbo'] at hb'end
      have hge := alignUp_ge (off + (c (readAll it.path)).length)
      have hlt := alignUp_lt (off + (c (readAll it.path)).length)
      refine ⟨by rw [hc1]; exact alignUp_least _, by rw [hc1]; omega, ?_⟩
      conv_lhs => rw [hfile]
      rw [readAt_append_right _ _ _ _ (by omega), hhdr,
        readAt_append_left _ _ _ _ (by omega)]
      exact hc2
    · intro hf
      rw [hf] at hes
      rw [hes]; show alignUp 56 = 64; decide
    · intro k it off hlen hk ho
      obtain ⟨b, hb, hbo, hbi, hbc, hb56, -⟩ := pack_layout_of_offset h k off ho
      rw [hk] at hbi
      have hit : b.item = it := (Option.some.inj hbi).symm
      rw [hit] at hbc
      have hend := layoutEnd_last c r.files 56 0 k b hlen hb
      rw [hbo, hbc] at hend
      rw [hend] at hes hL
      refine ⟨by rw [hes]; exact alignUp_least _, ?_⟩
      conv_lhs => rw [hfile]
      rw [hend, readAt_append_right _ _ _ _ (by omega), hhdr,
        readAt_append_right _ _ _ _ (by omega),
        show off + (c (readAll it.path)).length - 56 - (layoutBytes c 56 r.files).length = 0
          by omega]
      exact readAt_zero_append_of_length _ _ _ (List.length_replicate _ _)
    · have hn : r.header.num_entries = r.entries.length := by
        rw [h1, pack_entries_length h, h0]
      rw [hms, flatMap_toBytes_length, hn]
      exact alignUp_least _
    · have hn : r.header.num_entries = r.entries.length := by
        rw [h1, pack_entries_length h, h0]
      have hmod : r.header.entry_table_start % 16 = 0 := by rw [hes]; exact alignUp_mod _
      rw [hms, flatMap_toBytes_length, hn]
      exact alignUp_of_mod _ (by omega)

/-- C18 at a stream left at position 70 and at the sample directory. -/
theorem layout_tight_witness :
    (∃ n, n < 16 ∧
      (align16 { bytes := List.replicate 70 7, pos := 70 }).pos = 70 + n ∧
      IsLeastMultipleOf16 70 (align16 { bytes := List.replicate 70 7, pos := 70 }).pos) ∧
    ∃ r, pack insertionSortByHash tagCompress sampleListing = some r ∧
      r.dataOffsets = [64, 96] ∧
      IsLeastMultipleOf16 (64 + 20) 96 ∧
      readAt r.file (64 + 20) (96 - (64 + 20)) = List.replicate (96 - (64 + 20)) 0 := by
  obtain ⟨n, h1, h2, -, h4⟩ := layout_tight.1 { bytes := List.replicate 70 7, pos := 70 }
    (by decide)
  have hk := ((layout_tight.2 insertionSortByHash insertionSortByHash_isStdSort tagCompress
    sampleListing).2 _ rfl).2.2.1 0
    { hash := ScsHash (ascii "/def/truck.sii"),
      path := { relPath := ascii "def/truck.sii",
                content := some (ascii "SiiNunit 0123456789") } } 64 96
    (by decide) (by decide) (by decide)
  exact ⟨⟨n, h1, h2, h4⟩, _, rfl, rfl, hk.1, hk.2.2⟩

/-! ## Claims on failures and on ties -/

theorem main_of_args (sort : List Item → List Item) (c : List Nat → List Nat)
    (argc : Nat) (hargc : 3 ≤ argc) (listing : List SourceFile) :
    main sort c argc true listing = (pack sort c listing).map fun a => (0, some a) := by
  unfold main
  rw [if_neg (by omega)]
  rfl

/-- What a reader finds in the size fields of the record of the file at
position `k`: the sizes modulo `2^28`. -/
theorem pack_size_fields {sort : List Item → List Item} {c : List Nat → List Nat}
    {listing : List SourceFile} {r : Archive} (h : pack sort c listing = some r)
    (k : Nat) (it : Item) (hk : r.files[k]? = some it) :
    recCompressedSize (metaRecord r.metaTable k) = (c (readAll it.path)).length % 2 ^ 28 ∧
    recUncompressedSize (metaRecord r.metaTable k) = (readAll it.path).length % 2 ^ 28 := by
  obtain ⟨off, -, -, hrec, -⟩ := pack_block h k it hk
  rw [hrec, recCompressedSize_write_metadata, recUncompressedSize_write_metadata]
  constructor <;> omega

/-- One file of `2^28` bytes: `main` returns 0 and the record says the file
has 0 bytes, 1 compressed. -/
theorem size_limit_one_file (content : List Nat) (hlen : content.length = 268435456) :
    ∃ a, main insertionSortByHash tagCompress 3 true
        [{ relPath := ascii "a", content := some content }] = some (0, some a) ∧
      a.entries.length = 1 ∧ a.metaTable.length = 20 ∧
      recUncompressedSize (metaRecord a.metaTable 0) = 0 ∧
      recCompressedSize (metaRecord a.metaTable 0) = 1 := by
  obtain ⟨r, hr⟩ := pack_isSome insertionSortByHash tagCompress
    [{ relPath := ascii "a", content := some content }]
    (by rw [sort_length insertionSortByHash_isStdSort]
        simp only [List.length_cons, List.length_nil]; norm_num)
  obtain ⟨-, hfiles, -⟩ := pack_spec hr
  obtain ⟨h0, -⟩ := pack_header_counts insertionSortByHash_isStdSort hr
  have hk : r.files[0]? = some
      { hash := ScsHash (47 :: ascii "a"),
        path := { relPath := ascii "a", content := some content } } := by
    rw [hfiles]; rfl
  obtain ⟨hc, hu⟩ := pack_size_fields hr 0 _ hk
  rw [tagCompress_length, readAll_some, hlen] at hc
  rw [readAll_some, hlen] at hu
  have hlen1 := pack_entries_length hr
  have hstride := (pack_meta_stride hr).1
  rw [h0] at hlen1 hstride
  refine ⟨r, ?_, hlen1, hstride, by rw [hu]; norm_num, by rw [hc]; norm_num⟩
  rw [main_of_args _ _ 3 (Nat.le_refl 3), hr]
  rfl

/-- C12 (as stated, refuted): for a file of `2^28` bytes `main` reports success
(exit code 0) and emits a metadata record whose uncompressed-size field reads
0 and whose compressed-size field reads 1: no size-limit error is raised. -/
theorem size_limit_counterexample :
    ∃ a, main insertionSortByHash tagCompress 3 true
        [{ relPath := ascii "a", content := some (List.replicate 268435456 0) }]
          = some (0, some a) ∧
      a.entries.length = 1 ∧ a.metaTable.length = 20 ∧
      recUncompressedSize (metaRecord a.metaTable 0) = 0 ∧
      recCompressedSize (metaRecord a.metaTable 0) = 1 :=
  size_limit_one_file (List.replicate 268435456 0) (List.length_replicate _ _)

/-- C12 (amended): the packer checks no size. With both arguments given and the
output file created, for every input file list of fewer than `2^32` files `main`
returns exit code 0 with one metadata record per file, and the size fields of
the record of each file hold its compressed and its uncompressed size modulo
`2^28`: the sizes themselves when they are below `2^28`, truncated otherwise. -/
theorem size_fields_truncated (sort : List Item → List Item) (hs : IsStdSort sort)
    (c : List Nat → List Nat) (argc : Nat) (hargc : 3 ≤ argc)
    (listing : List SourceFile) :
    (listing.length < 2 ^ 32 → ∃ a, main sort c argc true listing = some (0, some a)) ∧
    ∀ (code : Nat) (res : Option Archive), main sort c argc true listing = some (code, res) →
      code = 0 ∧ ∃ a, res = some a ∧ a.metaTable.length = 20 * listing.length ∧
        ∀ (k : Nat) (it : Item), a.files[k]? = some it →
          recCompressedSize (metaRecord a.metaTable k)
            = (c (readAll it.path)).length % 2 ^ 28 ∧
          recUncompressedSize (metaRecord a.metaTable k)
            = (readAll it.path).length % 2 ^ 28 ∧
          ((c (readAll it.path)).length < 2 ^ 28 →
            recCompressedSize (metaRecord a.metaTable k) = (c (readAll it.path)).length) ∧
          ((readAll it.path).length < 2 ^ 28 →
            recUncompressedSize (metaRecord a.metaTable k) = (readAll it.path).length) := by
  rw [main_of_args sort c argc hargc]
  constructor
  · intro hlen
    obtain ⟨r, hr⟩ := pack_isSome sort c listing (by rw [sort_length hs]; exact hlen)
    exact ⟨r, by rw [hr]; rfl⟩
  · intro code res hmain
    cases hp : pack sort c listing with
    | none => rw [hp] at hmain; simp at hmain
    | some r =>
      rw [hp] at hmain
      simp only [Option.map_some', Option.some.injEq, Prod.mk.injEq] at hmain
      obtain ⟨hcode, hres⟩ := hmain
      obtain ⟨h0, -⟩ := pack_header_counts hs hp
      refine ⟨hcode.symm, r, hres.symm, by rw [(pack_meta_stride hp).1, h0], ?_⟩
      intro k it hk
      obtain ⟨hc, hu⟩ := pack_size_fields hp k it hk
      refine ⟨hc, hu, ?_, ?_⟩
      · intro hlt; rw [hc, Nat.mod_eq_of_lt hlt]
      · intro hlt; rw [hu, Nat.mod_eq_of_lt hlt]

/-- The amended C12 at the sample directory. -/
theorem size_fields_truncated_witness :
    ∃ a, main insertionSortByHash tagCompress 3 true sampleListing = some (0, some a) ∧
      a.metaTable.length = 40 ∧
      recCompressedSize (metaRecord a.metaTable 1) = 6 ∧
      recUncompressedSize (metaRecord a.metaTable 1) = 5 := by
  obtain ⟨-, a, ha, hlen, hk⟩ := (size_fields_truncated insertionSortByHash
    insertionSortByHash_isStdSort tagCompress 3 (by decide) sampleListing).2 0 _ rfl
  obtain ⟨-, -, h3, h4⟩ := hk 1
    { hash := ScsHash (ascii "/readme.md"),
      path := { relPath := ascii "readme.md", content := some (ascii "hello") } }
    (by rw [← Option.some.inj ha]; decide)
  rw [← Option.some.inj ha] at hlen h3 h4
  exact ⟨_, rfl, hlen, h3 (by decide), h4 (by decide)⟩

/-- C13 (the code at the failing input): a directory whose only file `a.txt`
cannot be opened for reading. `main` returns exit code 0, emits one entry and
one metadata record with an uncompressed size of 0, and the output file is
byte for byte the archive of an empty `a.txt`. -/
theorem unreadable_file_packed_as_empty :
    ∃ a a', main insertionSortByHash tagCompress 3 true
        [{ relPath := ascii "a.txt", content := none }] = some (0, some a) ∧
      main insertionSortByHash tagCompress 3 true
        [{ relPath := ascii "a.txt", content := some [] }] = some (0, some a') ∧
      a.entries.length = 1 ∧ a.metaTable.length = 20 ∧
      recUncompressedSize (metaRecord a.metaTable 0) = 0 ∧
      a.file = a'.file ∧ a.entries = a'.entries ∧ a.metaTable = a'.metaTable :=
  ⟨_, _, rfl, rfl, rfl, rfl, by decide, rfl, rfl, rfl⟩

/-! ## Lemmas on `std::sort` -/

theorem scanUpFrom_ge (pivotHash : Nat) : ∀ (rest : List Item) (first : Nat),
    first ≤ scanUpFrom pivotHash rest first
  | [], first => Nat.le_refl _
  | x :: rest, first => by
    unfold scanUpFrom
    split
    · exact Nat.le_trans (Nat.le_succ first) (scanUpFrom_ge pivotHash rest (first + 1))
    · exact Nat.le_refl _

theorem scanDownFrom_le (pivotHash : Nat) : ∀ (rest : List Item) (last : Nat),
    scanDownFrom pivotHash rest last ≤ last
  | [], last => Nat.le_refl _
  | x :: rest, last => by
    unfold scanDownFrom
    split
    · exact Nat.le_trans (scanDownFrom_le pivotHash rest (last - 1)) (Nat.sub_le last 1)
    · exact Nat.le_refl _

/-- The loop of `__unguarded_partition` reaches its `return`: every round that
goes on moves `first` up and `last` down. -/
theorem unguardedPartitionLoop_isSome : ∀ (fuel : Nat) (l : List Item)
    (first last pivot : Nat), last ≤ first + fuel →
    ∃ res, unguardedPartitionLoop (fuel + 1) l first last pivot = some res
  | 0, l, first, last, pivot, h => by
    have h1 := scanUpFrom_ge (hashAt l pivot) (l.drop first) first
    have h2 := scanDownFrom_le (hashAt l pivot) (l.take (last - 1 + 1)).reverse (last - 1)
    have hnot : ¬ scanUp l pivot first < scanDown l pivot (last - 1) := by
      unfold scanUp scanDown; omega
    simp only [unguardedPartitionLoop, hnot, not_false_eq_true, if_true]
    exact ⟨_, rfl⟩
  | fuel + 1, l, first, last, pivot, h => by
    have h1 := scanUpFrom_ge (hashAt l pivot) (l.drop first) first
    have h2 := scanDownFrom_le (hashAt l pivot) (l.take (last - 1 + 1)).reverse (last - 1)
    by_cases hlt : scanUp l pivot first < scanDown l pivot (last - 1)
    · rw [unguardedPartitionLoop]
      simp only [hlt, not_true_eq_false, if_false]
      exact unguardedPartitionLoop_isSome fuel _ _ _ pivot
        (by unfold scanUp scanDown at *; omega)
    · rw [unguardedPartitionLoop]
      simp only [hlt, not_false_eq_true, if_true]
      exact ⟨_, rfl⟩

/-- The fuel `unguardedPartition` gives its loop is enough. -/
theorem unguardedPartition_eq (l : List Item) (first last pivot : Nat) :
    unguardedPartitionLoop (last - first + 1) l first last pivot
      = some (unguardedPartition l first last pivot) := by
  obtain ⟨res, hres⟩ := unguardedPartitionLoop_isSome (last - first) l first last pivot
    (by omega)
  unfold unguardedPartition
  rw [hres]
  rfl

theorem unguardedLinearInsert_perm (val : Item) : ∀ before : List Item,
    (unguardedLinearInsert val before).Perm (val :: before)
  | [] => List.Perm.refl _
  | next :: before => by
    unfold unguardedLinearInsert
    split
    · exact ((unguardedLinearInsert_perm val before).cons next).trans (List.Perm.swap _ _ _)
    · exact List.Perm.refl _

theorem insertionSortStep_perm (sortedRev : List Item) (x : Item) :
    (insertionSortStep sortedRev x).Perm (x :: sortedRev) := by
  unfold insertionSortStep
  split
  · split
    · exact List.perm_append_singleton x sortedRev
    · exact unguardedLinearInsert_perm x sortedRev
  · rename_i hnone
    rw [List.getLast?_eq_none_iff.1 hnone]

theorem foldl_insertionSortStep_perm : ∀ (l acc : List Item),
    (l.foldl insertionSortStep acc).Perm (l ++ acc)
  | [], acc => List.Perm.refl _
  | x :: rest, acc => by
    rw [List.foldl_cons]
    refine (foldl_insertionSortStep_perm rest _).trans ?_
    refine ((insertionSortStep_perm acc x).append_left rest).trans ?_
    exact List.perm_middle

/-- In a range held from its end backwards and sorted, every element is at
least the first one of the range. -/
theorem first_le_of_sortedRev {sortedRev : List Item} {first : Item}
    (hs : sortedRev.Pairwise (fun a b => b.hash ≤ a.hash))
    (hf : sortedRev.getLast? = some first) :
    ∀ a ∈ sortedRev, first.hash ≤ a.hash := by
  obtain ⟨ys, rfl⟩ := List.getLast?_eq_some_iff.1 hf
  intro a ha
  rcases List.mem_append.1 ha with h | h
  · exact (List.pairwise_append.1 hs).2.2 a h first (List.mem_singleton.2 rfl)
  · rw [List.mem_singleton.1 h]

theorem unguardedLinearInsert_sorted (val : Item) : ∀ before : List Item,
    before.Pairwise (fun a b => b.hash ≤ a.hash) →
    (unguardedLinearInsert val before).Pairwise (fun a b => b.hash ≤ a.hash)
  | [], _ => List.pairwise_singleton _ _
  | next :: before, hs => by
    obtain ⟨hhead, htail⟩ := List.pairwise_cons.1 hs
    unfold unguardedLinearInsert
    split
    · rename_i hlt
      refine List.pairwise_cons.2 ⟨?_, unguardedLinearInsert_sorted val before htail⟩
      intro y hy
      rcases List.mem_cons.1 ((unguardedLinearInsert_perm val before).mem_iff.1 hy) with h | h
      · rw [h]; exact Nat.le_of_lt hlt
      · exact hhead y h
    · rename_i hnlt
      refine List.pairwise_cons.2 ⟨?_, hs⟩
      intro y hy
      rcases List.mem_cons.1 hy with h | h
      · rw [h]; exact Nat.le_of_not_lt hnlt
      · exact Nat.le_trans (hhead y h) (Nat.le_of_not_lt hnlt)

theorem insertionSortStep_sorted (sortedRev : List Item) (x : Item)
    (hs : sortedRev.Pairwise (fun a b => b.hash ≤ a.hash)) :
    (insertionSortStep sortedRev x).Pairwise (fun a b => b.hash ≤ a.hash) := by
  unfold insertionSortStep
  split
  · rename_i first hf
    split
    · rename_i hlt
      refine List.pairwise_append.2 ⟨hs, List.pairwise_singleton _ _, ?_⟩
      intro a ha b hb
      rw [List.mem_singleton.1 hb]
      exact Nat.le_of_lt (Nat.lt_of_lt_of_le hlt (first_le_of_sortedRev hs hf a ha))
    · exact unguardedLinearInsert_sorted x sortedRev hs
  · exact List.pairwise_singleton _ _

theorem foldl_insertionSortStep_sorted : ∀ (l acc : List Item),
    acc.Pairwise (fun a b => b.hash ≤ a.hash) →
    (l.foldl insertionSortStep acc).Pairwise (fun a b => b.hash ≤ a.hash)
  | [], _, hs => hs
  | x :: rest, acc, hs => by
    rw [List.foldl_cons]
    exact foldl_insertionSortStep_sorted rest _ (insertionSortStep_sorted acc x hs)

/-- `val` never passes an element of its own hash. -/
theorem unguardedLinearInsert_filter (h : Nat) (val : Item) : ∀ before : List Item,
    (unguardedLinearInsert val before).filter (fun it => decide (it.hash = h))
      = (val :: before).filter (fun it => decide (it.hash = h))
  | [] => rfl
  | next :: before => by
    unfold unguardedLinearInsert
    split
    · rename_i hlt
      rw [List.filter_cons, unguardedLinearInsert_filter h val before]
      by_cases hv : val.hash = h
      · have hn : ¬ next.hash = h := by omega
        simp only [List.filter_cons, hv, hn, decide_True, decide_False, if_true, if_false,
          Bool.false_eq_true]
      · simp only [List.filter_cons, hv, decide_False, if_false, Bool.false_eq_true]
    · rfl

/-- One round of the insertion sort keeps the order of equal hashes: the new
element ends behind the earlier elements of its hash. -/
theorem insertionSortStep_filter (h : Nat) (sortedRev : List Item) (x : Item)
    (hs : sortedRev.Pairwise (fun a b => b.hash ≤ a.hash)) :
    (insertionSortStep sortedRev x).filter (fun it => decide (it.hash = h))
      = (x :: sortedRev).filter (fun it => decide (it.hash = h)) := by
  unfold insertionSortStep
  split
  · rename_i first hf
    split
    · rename_i hlt
      rw [List.filter_append]
      by_cases hx : x.hash = h
      · have hnil : sortedRev.filter (fun it => decide (it.hash = h)) = [] := by
          rw [List.filter_eq_nil_iff]
          intro a ha
          have := first_le_of_sortedRev hs hf a ha
          simp only [decide_eq_true_eq]
          omega
        simp only [List.filter_cons, List.filter_nil, hx, hnil, decide_True, if_true,
          List.nil_append]
      · simp only [List.filter_cons, List.filter_nil, hx, decide_False, if_false,
          Bool.false_eq_true, List.append_nil]
    · exact unguardedLinearInsert_filter h x sortedRev
  · rename_i hnone
    rw [List.getLast?_eq_none_iff.1 hnone]

theorem foldl_insertionSortStep_filter (h : Nat) : ∀ (l acc : List Item),
    acc.Pairwise (fun a b => b.hash ≤ a.hash) →
    (l.foldl insertionSortStep acc).filter (fun it => decide (it.hash = h))
      = (l.reverse ++ acc).filter (fun it => decide (it.hash = h))
  | [], acc, _ => by rw [List.foldl_nil, List.reverse_nil, List.nil_append]
  | x :: rest, acc, hs => by
    rw [List.foldl_cons, foldl_insertionSortStep_filter h rest _
      (insertionSortStep_sorted acc x hs), List.filter_append,
      insertionSortStep_filter h acc x hs, List.reverse_cons, List.append_assoc,
      List.filter_append]
    rfl

/-- `__insertion_sort` meets the contract of `std::sort`. -/
theorem insertionSortRange_isStdSort : IsStdSort insertionSortRange := by
  intro l
  unfold insertionSortRange
  constructor
  · refine (List.reverse_perm _).trans ?_
    have := foldl_insertionSortStep_perm l []
    rw [List.append_nil] at this
    exact this
  · rw [List.pairwise_reverse]
    exact List.Pairwise.imp (fun hle => Nat.not_lt.2 hle)
      (foldl_insertionSortStep_sorted l [] List.Pairwise.nil)

/-- `__insertion_sort` is stable: the elements of one hash keep their order. -/
theorem insertionSortRange_filter (h : Nat) (l : List Item) :
    (insertionSortRange l).filter (fun it => decide (it.hash = h))
      = l.filter (fun it => decide (it.hash = h)) := by
  unfold insertionSortRange
  rw [List.filter_reverse, foldl_insertionSortStep_filter h l [] List.Pairwise.nil,
    List.append_nil, List.filter_reverse, List.reverse_reverse]

/-- On a range of at most 16 elements `std::sort` is the insertion sort. -/
theorem stdSort_of_length_le (partialSort : List Item → List Item) (l : List Item)
    (hlen : l.length ≤ 16) : stdSort partialSort l = insertionSortRange l := by
  unfold stdSort
  by_cases h0 : l.length = 0
  · rw [if_pos h0, List.eq_nil_of_length_eq_zero h0]
    rfl
  · rw [if_neg h0]
    have hloop : ∀ depth, introsortLoop partialSort depth l = l := by
      intro depth
      cases depth with
      | zero => unfold introsortLoop; rw [if_neg (by omega)]
      | succ d => unfold introsortLoop; rw [if_neg (by omega)]
    rw [hloop]
    unfold finalInsertionSort
    rw [if_neg (by omega)]

/-- `pack` uses the sort only on the collected files. -/
theorem pack_congr (sort1 sort2 : List Item → List Item) (c : List Nat → List Nat)
    (listing : List SourceFile)
    (h : sort1 (collectFiles listing) = sort2 (collectFiles listing)) :
    pack sort1 c listing = pack sort2 c listing := by
  unfold pack
  simp only [h]

/-! ## Claim on hash ties -/

set_option maxRecDepth 100000 in
/-- C20 (as stated, refuted): the 20 files `a.txt`, ..., `t.txt` all hash alike.
`std::sort` cuts the range of 20 once: it swaps the elements of rank 0 and 10
and then those of rank 1 and 19, 2 and 18, and so on, and the final insertion
sort moves nothing. So `b.txt`, enumerated before `c.txt`, is packed after it:
entry and metadata record 18 are those of `c.txt` (3 bytes), entry and record
19 those of `b.txt` (2 bytes). The heap sort parameter plays no part. -/
theorem tie_order_counterexample :
    (∀ partialSort : List Item → List Item,
      (stdSort partialSort (collectFiles twentyTiedFiles)).map (fun it => it.path.relPath)
        = [10, 19, 18, 17, 16, 15, 14, 13, 12, 11, 0, 9, 8, 7, 6, 5, 4, 3, 2, 1].map
            fun i => (97 + i) :: ascii ".txt") ∧
    twentyTiedFiles.map (fun f => ScsHash (47 :: f.relPath))
      = List.replicate 20 (ScsHash (ascii "/a.txt")) ∧
    (twentyTiedFiles.map fun f => f.relPath)[1]? = some (ascii "b.txt") ∧
    (twentyTiedFiles.map fun f => f.relPath)[2]? = some (ascii "c.txt") ∧
    ∃ r, pack (stdSort insertionSortByHash) tagCompress twentyTiedFiles = some r ∧
      (r.files.map fun it => it.path.relPath)[18]? = some (ascii "c.txt") ∧
      (r.files.map fun it => it.path.relPath)[19]? = some (ascii "b.txt") ∧
      recUncompressedSize (metaRecord r.metaTable 18) = 3 ∧
      recUncompressedSize (metaRecord r.metaTable 19) = 2 :=
  ⟨fun _ => rfl, by decide, by decide, by decide, _, rfl, by decide, by decide, by decide,
    by decide⟩

/-- C20 (amended): hash ties keep the input order when the directory holds at
most 16 files, the ranges that the `std::sort` of the GNU library sorts by
insertion alone. For every such file list packing returns; the packed files are
the enumerated files, each once, in non-decreasing hash order; entry `k` and
the 20 bytes of metadata at `20k` are those of the file at position `k`, whose
compressed bytes the output file holds at the recorded offset; for every hash
value the files with that hash are packed in the order of the enumeration; and
so two files whose paths have the same hash appear in the relative order in
which the enumeration produced them. -/
theorem tie_order (partialSort : List Item → List Item) (c : List Nat → List Nat)
    (listing : List SourceFile) (hlen : listing.length ≤ 16) :
    ∃ r, pack (stdSort partialSort) c listing = some r ∧
      (r.files.map fun it => it.path).Perm listing ∧
      r.files.Pairwise (fun a b => a.hash ≤ b.hash) ∧
      r.entries.Pairwise (fun a b => a.hash ≤ b.hash) ∧
      (∀ (k : Nat) (it : Item), r.files[k]? = some it →
        it.hash = ScsHash (47 :: it.path.relPath) ∧
        r.entries[k]? = some { hash := it.hash, metadata_index := k, metadata_count := 1,
                               flags := 0x4 } ∧
        ∃ off, r.dataOffsets[k]? = some off ∧
          readAt r.metaTable (20 * k) 20 = [128, 0, 0, 0] ++
            write_metadata [] ((c (readAll it.path)).length % 2 ^ 32)
              ((readAll it.path).length % 2 ^ 32) off true ∧
          readAt r.file off (c (readAll it.path)).length = c (readAll it.path)) ∧
      (∀ h : Nat, r.files.filter (fun it => decide (it.hash = h))
        = (collectFiles listing).filter (fun it => decide (it.hash = h))) ∧
      (∀ f g : SourceFile, ScsHash (47 :: f.relPath) = ScsHash (47 :: g.relPath) →
        List.Sublist [f, g] listing →
        List.Sublist [f, g] (r.files.map fun it => it.path)) := by
  have hcol : (collectFiles listing).length ≤ 16 := by
    unfold collectFiles; rw [List.length_map]; exact hlen
  have hpack := pack_congr (stdSort partialSort) insertionSortRange c listing
    (stdSort_of_length_le partialSort _ hcol)
  have hs := insertionSortRange_isStdSort
  obtain ⟨r, hr⟩ := pack_isSome insertionSortRange c listing
    (by rw [sort_length hs]; exact Nat.lt_of_le_of_lt hlen (by norm_num))
  obtain ⟨-, hfiles, -⟩ := pack_spec hr
  have hmap : (collectFiles listing).map (fun it => it.path) = listing := by
    unfold collectFiles
    rw [List.map_map]
    exact List.map_id _
  have hfilter : ∀ h : Nat, r.files.filter (fun it => decide (it.hash = h))
      = (collectFiles listing).filter (fun it => decide (it.hash = h)) := by
    intro h
    rw [hfiles]
    exact insertionSortRange_filter h _
  rw [hpack]
  refine ⟨r, hr, ?_, ?_, ?_, ?_, hfilter, ?_⟩
  · rw [hfiles]
    have := (hs (collectFiles listing)).1.map (fun it : Item => it.path)
    rw [hmap] at this
    exact this
  · rw [hfiles]
    exact List.Pairwise.imp (fun hnlt => Nat.not_lt.1 hnlt) (hs (collectFiles listing)).2
  · have := (pack_entries_hash_sorted hs hr).2
    rw [List.pairwise_map] at this
    exact this
  · intro k it hk
    obtain ⟨off, ho, he, -, -, -, hread⟩ := pack_block hr k it hk
    obtain ⟨off', ho', hbytes⟩ := pack_meta_bytes hr k it hk
    rw [ho] at ho'
    rw [← Option.some.inj ho'] at hbytes
    exact ⟨(pack_files_hash hs hr it (List.mem_iff_getElem?.2 ⟨k, hk⟩)).1, he, off, ho,
      hbytes, hread⟩
  · intro f g hfg hsub
    have hsub2 : List.Sublist
        [({ hash := ScsHash (47 :: f.relPath), path := f } : Item),
         { hash := ScsHash (47 :: g.relPath), path := g }] (collectFiles listing) :=
      hsub.map (fun p : SourceFile =>
        ({ hash := ScsHash (47 :: p.relPath), path := p } : Item))
    have hsub3 := hsub2.filter (fun it => decide (it.hash = ScsHash (47 :: f.relPath)))
    rw [← hfilter] at hsub3
    have hpair : List.filter (fun it => decide (it.hash = ScsHash (47 :: f.relPath)))
        [({ hash := ScsHash (47 :: f.relPath), path := f } : Item),
         { hash := ScsHash (47 :: g.relPath), path := g }]
        = [{ hash := ScsHash (47 :: f.relPath), path := f },
           { hash := ScsHash (47 :: g.relPath), path := g }] := by
      simp only [List.filter_cons, List.filter_nil, hfg, decide_True, if_true]
    rw [hpair] at hsub3
    exact (hsub3.trans (List.filter_sublist _)).map (fun it : Item => it.path)

/-- The amended C20 at `A.txt`, `a.txt`: two files of equal hash are packed in
the order of the enumeration. -/
theorem tie_order_witness :
    ∃ r, pack (stdSort insertionSortByHash) tagCompress twoTiedFiles = some r ∧
      (r.files.map fun it => it.path.relPath) = [ascii "A.txt", ascii "a.txt"] ∧
      List.Sublist twoTiedFiles (r.files.map fun it => it.path) := by
  obtain ⟨r, hr, -, -, -, -, -, hpair⟩ :=
    tie_order insertionSortByHash tagCompress twoTiedFiles (by decide)
  have hsub := hpair { relPath := ascii "A.txt", content := some [1] }
    { relPath := ascii "a.txt", content := some [2, 3] } (by decide) (List.Sublist.refl _)
  have hr2 : pack (stdSort insertionSortByHash) tagCompress twoTiedFiles = some r := hr
  refine ⟨r, hr, ?_, hsub⟩
  have hdec : ∃ r', pack (stdSort insertionSortByHash) tagCompress twoTiedFiles = some r' ∧
      (r'.files.map fun it => it.path.relPath) = [ascii "A.txt", ascii "a.txt"] :=
    ⟨_, rfl, rfl⟩
  obtain ⟨r', hr', hnames⟩ := hdec
  rw [hr2] at hr'
  rw [Option.some.inj hr']
  exact hnames

end ScsPacker
